import Mathlib

/-!
Shallow embedding of `src/unblock.cc`, an "Unblock Me" style sliding-block
puzzle solver: a 6x6 grid of rectangular pieces, breadth-first search for
the shortest move sequence bringing the goal piece (index 0) to a target
cell.

Modelling conventions:
* `int8_t` coordinates become `Int`.  The claims are about states where the
  C++ program is defined (all coordinates small and nonnegative), where
  `int8_t` arithmetic never wraps.
* The render buffer `char[6][6]` becomes a total function
  `Int → Int → Char`.  All in-bounds accesses of the C++ array coincide
  with this model; out-of-bounds accesses of the C++ array are undefined
  behaviour and are outside the modelled domain.
* `exit(1)` (the clash branch of `Piece::Draw` and the missing-backpointer
  branch of `Game::TracePathTo`) is modelled by `Option`: `none` is a
  fatal termination, `some` a normal return.
* The unbounded BFS `while` loop of `Game::Solve` is modelled with an
  explicit fuel parameter; `fuelBound` is proven sufficient for every
  well-formed start state, so `none` from fuel exhaustion never occurs on
  the modelled domain.
* `std::unordered_map` is used by the source only through `find` and
  `emplace` (no iteration), so it is modelled as an association list with
  first-match lookup.
* `std::sort` inside `State::Canonicalize` is modelled by the stable
  `List.insertionSort`.  (For the array sizes this program sorts — at most
  the piece count, far below libstdc++'s 16-element threshold — `std::sort`
  is a single insertion-sort pass, which is stable, so this model is exact
  for the program's regime.)
-/

def kHashMult : Nat := 31

def kBoardSize : Int := 6

def kEmpty : Char := '.'

inductive Orient : Type where
  | kHoriz : Orient
  | kVert : Orient
deriving DecidableEq, Repr

/-- Numeric value of the `Orient` enum (`int8_t` backed, `kHoriz = 0`,
`kVert = 1`), used by `Piece::hash`. -/
def orientVal : Orient → Nat
  | .kHoriz => 0
  | .kVert => 1

structure Piece where
  x : Int
  y : Int
  size : Int
  orient : Orient
deriving DecidableEq, Repr

/-- The render buffer `DrawBuf = char[6][6]`, as a total function; indexed
as `buf y x` like `buf[y][x]` in the source. -/
def DrawBuf : Type := Int → Int → Char

/-- Write one cell of a buffer: `(*buf)[y][x] = c`. -/
def bufSet (b : DrawBuf) (y x : Int) (c : Char) : DrawBuf :=
  fun y0 x0 => if y0 = y ∧ x0 = x then c else b y0 x0

/-- The buffer after `memset(b, kEmpty, sizeof(*b))`. -/
def emptyBuf : DrawBuf := fun _ _ => kEmpty

/-- Conversion of a (mathematical) integer to `size_t`, i.e. reduction
modulo `2^64`. -/
def u64 (i : Int) : Nat := (i % ((2 : Int) ^ 64)).toNat

namespace Piece

/-- `Piece::hash`:
`x + kHashMult * (y + kHashMult * (size + kHashMult * (size_t)orient))`,
computed in `size_t` arithmetic. -/
def hash (p : Piece) : Nat :=
  (u64 p.x + kHashMult * (u64 p.y + kHashMult * (u64 p.size + kHashMult * orientVal p.orient)))
    % 2 ^ 64

/-- `Piece::operator<`: `y < other.y || (y == other.y && x < other.x)`. -/
def lt (a b : Piece) : Prop :=
  a.y < b.y ∨ (a.y = b.y ∧ a.x < b.x)

instance (a b : Piece) : Decidable (Piece.lt a b) :=
  inferInstanceAs (Decidable (a.y < b.y ∨ (a.y = b.y ∧ a.x < b.x)))

/-- The non-strict comparison a sort driven by `Piece::operator<` orders by:
`le a b = ¬(b < a)`, spelled out. -/
def le (a b : Piece) : Prop :=
  a.y < b.y ∨ (a.y = b.y ∧ a.x ≤ b.x)

instance (a b : Piece) : Decidable (Piece.le a b) :=
  inferInstanceAs (Decidable (a.y < b.y ∨ (a.y = b.y ∧ a.x ≤ b.x)))

/-- Cells covered starting at `(cx, cy)` and extending `n` cells along
orientation `o` (the footprint traversal of `Piece::Draw`). -/
def cellsFrom : Int → Int → Orient → Nat → List (Int × Int)
  | _, _, _, 0 => []
  | cx, cy, .kHoriz, Nat.succ k => (cx, cy) :: cellsFrom (cx + 1) cy .kHoriz k
  | cx, cy, .kVert, Nat.succ k => (cx, cy) :: cellsFrom cx (cy + 1) .kVert k

/-- The footprint of a piece: the `size` contiguous cells occupied starting
at `(x, y)` along the orientation axis. -/
def cells (p : Piece) : List (Int × Int) :=
  cellsFrom p.x p.y p.orient p.size.toNat

/-- Loop body of `Piece::Draw`: starting at `(cx, cy)`, check each of the
`n` footprint cells for a clash (`none` models the fatal `exit(1)`), stamp
the marker, and advance along the orientation. -/
def drawAux : DrawBuf → Char → Int → Int → Orient → Nat → Option DrawBuf
  | b, _, _, _, _, 0 => some b
  | b, c, cx, cy, o, Nat.succ k =>
    if b cy cx ≠ kEmpty then none
    else
      match o with
      | .kHoriz => drawAux (bufSet b cy cx c) c (cx + 1) cy o k
      | .kVert => drawAux (bufSet b cy cx c) c cx (cy + 1) o k

/-- `Piece::Draw(buf, c)`. -/
def draw (p : Piece) (b : DrawBuf) (c : Char) : Option DrawBuf :=
  drawAux b c p.x p.y p.orient p.size.toNat

/-- `Piece::MovementRange(buf)`.  The source's scan loops are guarded by
`min_delta > -1` (resp. `max_delta < 1`), so each `while` loop runs at most
one iteration; each loop is therefore exactly one conditional test of the
adjacent cell (boundary test first, then emptiness, in the source's
short-circuit order). -/
def movementRange (p : Piece) (b : DrawBuf) : Int × Int :=
  match p.orient with
  | .kHoriz =>
    (if p.x - 1 ≥ 0 ∧ b p.y (p.x - 1) = kEmpty then -1 else 0,
     if p.x + p.size < kBoardSize ∧ b p.y (p.x + p.size) = kEmpty then 1 else 0)
  | .kVert =>
    (if p.y - 1 ≥ 0 ∧ b (p.y - 1) p.x = kEmpty then -1 else 0,
     if p.y + p.size < kBoardSize ∧ b (p.y + p.size) p.x = kEmpty then 1 else 0)

/-- `Piece::Move(delta)`. -/
def move (p : Piece) (delta : Int) : Piece :=
  match p.orient with
  | .kHoriz => { p with x := p.x + delta }
  | .kVert => { p with y := p.y + delta }

end Piece

structure State where
  pieces : List Piece
deriving DecidableEq, Repr

/-- Marker character used by `State::Draw` for piece index `i`: `'*'` for
the goal piece, `'A' + i` for the others. -/
def stateMarker (i : Nat) : Char :=
  if i = 0 then '*' else Char.ofNat (65 + i)

/-- Inclusive integer range `[lo, hi]` as a list (the iteration space of
`for (delta = lo; delta <= hi; ++delta)`). -/
def intRange (lo hi : Int) : List Int :=
  (List.range (hi + 1 - lo).toNat).map (fun (k : Nat) => lo + (k : Int))

namespace State

/-- `State::hash`: fold `cur = cur * kHashMult + piece.hash(); cur ^= cur << 32`
over the pieces in `size_t` arithmetic. -/
def hash (s : State) : Nat :=
  s.pieces.foldl
    (fun cur p =>
      let c1 := (cur * kHashMult + Piece.hash p) % 2 ^ 64
      Nat.xor c1 ((c1 * 2 ^ 32) % 2 ^ 64) % 2 ^ 64)
    0

/-- `State::Canonicalize`: `sort(pieces.begin() + 1, pieces.end())` — the
goal piece stays first, the rest are sorted by `Piece::operator<`. -/
def canonicalize (s : State) : State :=
  match s.pieces with
  | [] => ⟨[]⟩
  | h :: t => ⟨h :: t.insertionSort Piece.le⟩

/-- `State::Draw`: clear the buffer then draw every piece in order with its
index marker; `none` models the fatal clash `exit(1)`. -/
def draw (s : State) : Option DrawBuf :=
  s.pieces.enum.foldl
    (fun ob ip => ob.bind (fun b => Piece.draw ip.2 b (stateMarker ip.1)))
    (some emptyBuf)

/-- `State::Neighbors`: render the board, and for every piece index `i` and
every nonzero `delta` in that piece's movement range, the copy of this
state with piece `i` moved by `delta`, canonicalized. -/
def neighbors (s : State) : Option (List State) :=
  match s.draw with
  | none => none
  | some b =>
    some
      (s.pieces.enum.flatMap fun ip =>
        let r := Piece.movementRange ip.2 b
        ((intRange r.1 r.2).filter fun d => d ≠ 0).map fun d =>
          canonicalize ⟨s.pieces.set ip.1 (Piece.move ip.2 d)⟩)

end State

structure Game where
  start_state : State
  dest_x : Int
  dest_y : Int

/-- First-match association-list lookup, modelling
`unordered_map<State, State, StateHash>::find` keyed by `State::operator==`. -/
def lookupS : List (State × State) → State → Option State
  | [], _ => none
  | (k, v) :: rest, s => if k = s then some v else lookupS rest s

/-- Loop body of `Game::TracePathTo`: while the current state is not the
empty sentinel, append it to the sequence and follow its backpointer;
`none` models the fatal missing-backpointer `exit(1)` (or insufficient
fuel, which `tracePathTo` is given enough of to never hit on a finite
backpointer chain). -/
def traceAux : Nat → List (State × State) → State → List State → Option (List State)
  | 0, _, _, _ => none
  | Nat.succ f, prev, s, acc =>
    if s.pieces = [] then some acc.reverse
    else
      match lookupS prev s with
      | none => none
      | some v => traceAux f prev v (acc ++ [s])

/-- `Game::TracePathTo(final_state)`. -/
def tracePathTo (prev : List (State × State)) (s : State) : Option (List State) :=
  traceAux (prev.length + 1) prev s []

/-- Inner loop of `Game::Solve` over freshly produced neighbors: each
neighbor not already a key of the backpointer map is recorded with the
current state as its backpointer and enqueued with `moves + 1`. -/
def enqueueAll (cur : State) (m : Nat) :
    List State → List (State × Nat) → List (State × State) →
      List (State × Nat) × List (State × State)
  | [], q, prev => (q, prev)
  | n :: ns, q, prev =>
    if lookupS prev n = none then
      enqueueAll cur m ns (q ++ [(n, m + 1)]) (prev ++ [(n, cur)])
    else
      enqueueAll cur m ns q prev

/-- BFS loop of `Game::Solve`, with explicit fuel (the source loops until
the frontier empties; `fuelBound` below is sufficient fuel on the modelled
domain).  Popping a state whose `pieces` vector is empty would be undefined
behaviour (`front()` on an empty vector) and is modelled as `none`. -/
def solveAux (g : Game) : Nat → List (State × Nat) → List (State × State) → Option (List State)
  | 0, _, _ => none
  | Nat.succ _, [], _ => some []
  | Nat.succ f, (s, m) :: rest, prev =>
    match s.pieces with
    | [] => none
    | fp :: _ =>
      if fp.x = g.dest_x ∧ fp.y = g.dest_y then tracePathTo prev s
      else
        match s.neighbors with
        | none => none
        | some ns =>
          let qp := enqueueAll s m ns rest prev
          solveAux g f qp.1 qp.2

/-- The `(size, orient)` data of the start state's pieces; piece moves never
change these fields, so they are drawn from this list in every reachable
state. -/
def szList (g : Game) : List (Int × Orient) :=
  g.start_state.pieces.map fun p => (p.size, p.orient)

/-- A finite superset of all pieces that can ever occur in a reachable
state of `g` when the start state is well-formed: coordinates in `[0, 6)`
and `(size, orient)` from the start state. -/
def pieceSpace (g : Game) : Finset Piece :=
  ((Finset.range 6 ×ˢ Finset.range 6) ×ˢ (szList g).toFinset).image
    fun t => ⟨(t.1.1 : Int), (t.1.2 : Int), t.2.1, t.2.2⟩

/-- Fuel sufficient for the BFS loop of `Game::Solve` on the modelled
domain: one more than the number of candidate states (each loop iteration
decreases `|stateSpace| - |backpointer map| + |frontier|` by exactly one). -/
def fuelBound (g : Game) : Nat :=
  (pieceSpace g).card ^ g.start_state.pieces.length + 1

/-- `Game::Solve()`: frontier seeded with the start state at 0 moves, the
start state's backpointer set to the empty sentinel state. -/
def solve (g : Game) : Option (List State) :=
  solveAux g (fuelBound g) [(g.start_state, 0)] [(g.start_state, ⟨[]⟩)]

/-! ### Specification-level notions used to state the claims -/

/-- One legal move of the program: `t` is among the neighbors of `s`. -/
def Step (s t : State) : Prop :=
  t ∈ (State.neighbors s).getD []

instance (s t : State) : Decidable (Step s t) :=
  inferInstanceAs (Decidable (t ∈ (State.neighbors s).getD []))

/-- `t` is reachable from `a` in exactly `n` moves. -/
def ReachIn (a : State) : Nat → State → Prop
  | 0, t => t = a
  | Nat.succ k, t => ∃ u, ReachIn a k u ∧ Step u t

/-- `t` is reachable from `a` in at most `n` moves. -/
def ReachLE (a : State) (n : Nat) (t : State) : Prop :=
  ∃ j ≤ n, ReachIn a j t

/-- `t` is reachable from `a`. -/
def Reachable (a t : State) : Prop :=
  ∃ j, ReachIn a j t

/-- A list of states every consecutive pair of which is one legal move. -/
def IsPath : List State → Prop
  | [] => True
  | [_] => True
  | a :: b :: r => Step a b ∧ IsPath (b :: r)

/-- The goal piece (index 0) of `s` sits at the target cell of `g` (the
termination test of the BFS loop). -/
def IsGoal (g : Game) (s : State) : Prop :=
  ∃ fp t, s.pieces = fp :: t ∧ fp.x = g.dest_x ∧ fp.y = g.dest_y

/-- Extent of a piece's footprint along x and y. -/
def extents (p : Piece) : Int × Int :=
  match p.orient with
  | .kHoriz => (p.size, 1)
  | .kVert => (1, p.size)

/-- The piece's footprint lies inside the 6x6 grid. -/
def InBoundsP (p : Piece) : Prop :=
  0 ≤ p.x ∧ 0 ≤ p.y ∧ p.x + (extents p).1 ≤ kBoardSize ∧ p.y + (extents p).2 ≤ kBoardSize

instance (p : Piece) : Decidable (InBoundsP p) :=
  inferInstanceAs
    (Decidable
      (0 ≤ p.x ∧ 0 ≤ p.y ∧ p.x + (extents p).1 ≤ kBoardSize ∧ p.y + (extents p).2 ≤ kBoardSize))

/-- Every piece of the state lies inside the grid. -/
def InBounds (s : State) : Prop :=
  ∀ p ∈ s.pieces, InBoundsP p

instance (s : State) : Decidable (InBounds s) :=
  inferInstanceAs (Decidable (∀ p ∈ s.pieces, InBoundsP p))

/-- Two pieces occupy no common cell. -/
def PieceDisj (a b : Piece) : Prop :=
  ∀ c ∈ Piece.cells a, c ∉ Piece.cells b

instance (a b : Piece) : Decidable (PieceDisj a b) :=
  inferInstanceAs (Decidable (∀ c ∈ Piece.cells a, c ∉ Piece.cells b))

/-- The pieces of a state are pairwise non-overlapping. -/
def Disj (s : State) : Prop :=
  s.pieces.Pairwise PieceDisj

instance (s : State) : Decidable (Disj s) :=
  inferInstanceAs (Decidable (s.pieces.Pairwise PieceDisj))

/-! ### Comparator facts -/

instance : DecidableRel Piece.le :=
  fun a b => inferInstanceAs (Decidable (a.y < b.y ∨ (a.y = b.y ∧ a.x ≤ b.x)))

instance : IsTotal Piece Piece.le := by
  constructor
  intro a b
  unfold Piece.le
  omega

instance : IsTrans Piece Piece.le := by
  constructor
  intro a b c h1 h2
  unfold Piece.le at *
  omega

/-- Two pieces whose `(y, x)` sort keys are both `≤` each other have equal keys. -/
theorem le_antisymm_keys (a b : Piece) (h1 : Piece.le a b) (h2 : Piece.le b a) :
    a.y = b.y ∧ a.x = b.x := by
  unfold Piece.le at *
  omega

/-- Sorted lists that are permutations of each other and have pairwise
distinct `(y, x)` sort keys are equal. -/
theorem sorted_perm_eq_of_keys_distinct :
    ∀ {l₁ l₂ : List Piece}, l₁.Perm l₂ →
      l₁.Sorted Piece.le → l₂.Sorted Piece.le →
      l₁.Pairwise (fun a b => ¬(a.y = b.y ∧ a.x = b.x)) →
      l₁ = l₂ := by
  intro l₁
  induction l₁ with
  | nil =>
    intro l₂ hp _ _ _
    exact hp.nil_eq
  | cons a t₁ ih =>
    intro l₂ hp hs₁ hs₂ hk
    match l₂ with
    | [] => exact absurd hp.symm.nil_eq (by simp)
    | b :: t₂ =>
      have hab : a = b := by
        by_contra hne
        have hbt₁ : b ∈ t₁ := by
          have : b ∈ a :: t₁ := hp.mem_iff.mpr (List.mem_cons_self b t₂)
          rcases List.mem_cons.mp this with h | h
          · exact absurd h.symm hne
          · exact h
        have hat₂ : a ∈ t₂ := by
          have : a ∈ b :: t₂ := hp.mem_iff.mp (List.mem_cons_self a t₁)
          rcases List.mem_cons.mp this with h | h
          · exact absurd h hne
          · exact h
        have h1 : Piece.le a b := (List.pairwise_cons.mp hs₁).1 b hbt₁
        have h2 : Piece.le b a := (List.pairwise_cons.mp hs₂).1 a hat₂
        exact (List.pairwise_cons.mp hk).1 b hbt₁ (le_antisymm_keys a b h1 h2)
      subst hab
      have htail := ih hp.cons_inv
        (List.pairwise_cons.mp hs₁).2 (List.pairwise_cons.mp hs₂).2 (List.pairwise_cons.mp hk).2
      rw [htail]

/-! ### C4: canonicalization is idempotent -/

/-- C4: `Canonicalize` is idempotent: for every `State S`, applying
`Canonicalize` twice yields the same piece sequence as applying it once. -/
theorem canonicalize_idempotent (s : State) :
    State.canonicalize (State.canonicalize s) = State.canonicalize s := by
  unfold State.canonicalize
  match s with
  | ⟨[]⟩ => rfl
  | ⟨h :: t⟩ =>
    simp only
    rw [(List.sorted_insertionSort Piece.le t).insertionSort_eq]

/-! ### C5: canonicalization merges permutations of the non-goal pieces -/

/-- C5 counterexample: two states with the same goal piece whose remaining
pieces are permutations of each other, but whose sort keys `(y, x)` tie
(two overlapping pieces anchored at the same cell with different
orientations); canonicalization does not map them to equal states, so the
claim fails without a distinct-anchors hypothesis. -/
theorem canonicalize_perm_tie_cex :
    (⟨[⟨0, 0, 2, .kHoriz⟩, ⟨2, 2, 2, .kHoriz⟩, ⟨2, 2, 2, .kVert⟩]⟩ : State).pieces.head? =
      (⟨[⟨0, 0, 2, .kHoriz⟩, ⟨2, 2, 2, .kVert⟩, ⟨2, 2, 2, .kHoriz⟩]⟩ : State).pieces.head? ∧
    ([⟨2, 2, 2, .kHoriz⟩, ⟨2, 2, 2, .kVert⟩] : List Piece).Perm
      [⟨2, 2, 2, .kVert⟩, ⟨2, 2, 2, .kHoriz⟩] ∧
    State.canonicalize ⟨[⟨0, 0, 2, .kHoriz⟩, ⟨2, 2, 2, .kHoriz⟩, ⟨2, 2, 2, .kVert⟩]⟩ ≠
      State.canonicalize ⟨[⟨0, 0, 2, .kHoriz⟩, ⟨2, 2, 2, .kVert⟩, ⟨2, 2, 2, .kHoriz⟩]⟩ := by
  refine ⟨rfl, List.Perm.swap _ _ _, by decide⟩

/-- C5 (amended): two states with identical goal piece whose remaining
pieces are permutations of each other canonicalize to equal states (hence
with equal hash), provided no two of the non-goal pieces share the same
`(x, y)` anchor (automatic for non-overlapping states). -/
theorem canonicalize_perm_eq (s₁ s₂ : State) (gp : Piece) (t₁ t₂ : List Piece)
    (h₁ : s₁.pieces = gp :: t₁) (h₂ : s₂.pieces = gp :: t₂)
    (hperm : t₁.Perm t₂)
    (hkeys : t₁.Pairwise (fun a b => ¬(a.y = b.y ∧ a.x = b.x))) :
    State.canonicalize s₁ = State.canonicalize s₂ ∧
      State.hash (State.canonicalize s₁) = State.hash (State.canonicalize s₂) := by
  have hmain : State.canonicalize s₁ = State.canonicalize s₂ := by
    unfold State.canonicalize
    rw [h₁, h₂]
    simp only [State.mk.injEq, List.cons.injEq, true_and]
    apply sorted_perm_eq_of_keys_distinct
    · exact ((t₁.perm_insertionSort Piece.le).trans hperm).trans
        (t₂.perm_insertionSort Piece.le).symm
    · exact List.sorted_insertionSort Piece.le t₁
    · exact List.sorted_insertionSort Piece.le t₂
    · refine ((t₁.perm_insertionSort Piece.le).pairwise_iff ?_).mpr hkeys
      intro a b h hc
      exact h ⟨hc.1.symm, hc.2.symm⟩
  exact ⟨hmain, by rw [hmain]⟩

/-- Witness for `canonicalize_perm_eq` at concrete states. -/
theorem canonicalize_perm_eq_witness :
    State.canonicalize ⟨[⟨0, 2, 2, .kHoriz⟩, ⟨3, 0, 2, .kVert⟩, ⟨0, 4, 2, .kVert⟩]⟩ =
      State.canonicalize ⟨[⟨0, 2, 2, .kHoriz⟩, ⟨0, 4, 2, .kVert⟩, ⟨3, 0, 2, .kVert⟩]⟩ ∧
    State.hash (State.canonicalize ⟨[⟨0, 2, 2, .kHoriz⟩, ⟨3, 0, 2, .kVert⟩, ⟨0, 4, 2, .kVert⟩]⟩) =
      State.hash (State.canonicalize ⟨[⟨0, 2, 2, .kHoriz⟩, ⟨0, 4, 2, .kVert⟩, ⟨3, 0, 2, .kVert⟩]⟩) :=
  canonicalize_perm_eq _ _ ⟨0, 2, 2, .kHoriz⟩ [⟨3, 0, 2, .kVert⟩, ⟨0, 4, 2, .kVert⟩]
    [⟨0, 4, 2, .kVert⟩, ⟨3, 0, 2, .kVert⟩] rfl rfl (List.Perm.swap _ _ _) (by decide)

/-! ### C9: Solve is deterministic -/

/-- C9: `Solve` is deterministic: runs on identical inputs (same start
state and target coordinates) produce identical output sequences.  The
embedding is a pure function of exactly these inputs — the source's only
container iteration orders are the deterministic `deque` and `vector`
orders (`unordered_map` is used solely via `find`/`emplace`). -/
theorem solve_deterministic (g₁ g₂ : Game)
    (hs : g₁.start_state = g₂.start_state)
    (hx : g₁.dest_x = g₂.dest_x) (hy : g₁.dest_y = g₂.dest_y) :
    solve g₁ = solve g₂ := by
  cases g₁
  cases g₂
  simp only at hs hx hy
  subst hs; subst hx; subst hy
  rfl

/-- Witness for `solve_deterministic` at a concrete game. -/
theorem solve_deterministic_witness :
    solve ⟨⟨[⟨0, 0, 2, .kHoriz⟩]⟩, 3, 0⟩ = solve ⟨⟨[⟨0, 0, 2, .kHoriz⟩]⟩, 3, 0⟩ :=
  solve_deterministic _ _ rfl rfl rfl

/-! ### C1: what MovementRange actually returns -/

/-- Modelled from the spec: the full outward scan that §4.1 attributes to
`MovementRange` — "scans outward from the piece's footprint along its
orientation axis in both directions, counting contiguous empty cells,
stopping at the grid boundary or the first non-empty cell".  Counts the
contiguous empty in-grid cells starting at `(cx, cy)`, stepping by
`(dx, dy)`; fuel 6 (the board size) covers any scan within the grid. -/
def specScan (b : DrawBuf) (dx dy : Int) : Nat → Int → Int → Nat
  | 0, _, _ => 0
  | Nat.succ f, cx, cy =>
    if 0 ≤ cx ∧ cx < kBoardSize ∧ 0 ≤ cy ∧ cy < kBoardSize ∧ b cy cx = kEmpty then
      specScan b dx dy f (cx + dx) (cy + dy) + 1
    else 0

/-- Modelled from the spec: number of contiguous empty cells scanning
outward from the footprint in the negative direction. -/
def leftScanCount (p : Piece) (b : DrawBuf) : Nat :=
  match p.orient with
  | .kHoriz => specScan b (-1) 0 6 (p.x - 1) p.y
  | .kVert => specScan b 0 (-1) 6 p.x (p.y - 1)

/-- Modelled from the spec: number of contiguous empty cells scanning
outward from the footprint in the positive direction. -/
def rightScanCount (p : Piece) (b : DrawBuf) : Nat :=
  match p.orient with
  | .kHoriz => specScan b 1 0 6 (p.x + p.size) p.y
  | .kVert => specScan b 0 1 6 p.x (p.y + p.size)

/-- Modelled from the spec: the movement range the spec describes — the
full scan counts in both directions as inclusive signed bounds. -/
def specMovementRange (p : Piece) (b : DrawBuf) : Int × Int :=
  (-(leftScanCount p b : Int), (rightScanCount p b : Int))

/-- C1 counterexample: for the rendered board of a single horizontal piece
at (0, 0), `MovementRange` returns `(0, 1)`, not the full outward scan
bounds `(0, 4)` the claim describes — the source clamps each scan to one
cell. -/
theorem movementRange_not_full_scan_cex :
    ((⟨[⟨0, 0, 2, .kHoriz⟩]⟩ : State).draw.map fun b =>
        (Piece.movementRange ⟨0, 0, 2, .kHoriz⟩ b, specMovementRange ⟨0, 0, 2, .kHoriz⟩ b)) =
      some ((0, 1), (0, 4)) ∧
    ((0 : Int), (1 : Int)) ≠ ((0 : Int), (4 : Int)) := by
  exact ⟨by decide, by decide⟩

theorem specScan_succ (b : DrawBuf) (dx dy : Int) (f : Nat) (cx cy : Int) :
    specScan b dx dy (f + 1) cx cy =
      if 0 ≤ cx ∧ cx < kBoardSize ∧ 0 ≤ cy ∧ cy < kBoardSize ∧ b cy cx = kEmpty then
        specScan b dx dy f (cx + dx) (cy + dy) + 1
      else 0 := rfl

/-- The spec's scan count, clamped to one cell, is 1 or 0 according to
whether the first scanned cell is an in-grid empty cell. -/
theorem min1_specScan (b : DrawBuf) (dx dy cx cy : Int) :
    ((min 1 (specScan b dx dy 6 cx cy) : Nat) : Int) =
      if 0 ≤ cx ∧ cx < kBoardSize ∧ 0 ≤ cy ∧ cy < kBoardSize ∧ b cy cx = kEmpty then 1 else 0 := by
  rw [show (6 : Nat) = 5 + 1 from rfl, specScan_succ]
  split
  · rw [Nat.min_eq_left (Nat.succ_le_succ (Nat.zero_le _))]
    rfl
  · rfl

/-- C1 (amended): for an in-bounds piece of positive size, `MovementRange`
returns the spec's outward scan counts clamped to at most one cell in each
direction: `(-(min 1 leftScan), min 1 rightScan)`. -/
theorem movementRange_clamped (p : Piece) (b : DrawBuf)
    (hin : InBoundsP p) (hsz : 1 ≤ p.size) :
    Piece.movementRange p b =
      (-((min 1 (leftScanCount p b) : Nat) : Int), ((min 1 (rightScanCount p b) : Nat) : Int)) := by
  obtain ⟨px, py, psz, po⟩ := p
  obtain ⟨hx0, hy0, hxe, hye⟩ := hin
  simp only at hsz
  cases po with
  | kHoriz =>
    dsimp only [extents] at hx0 hy0 hxe hye
    simp only [Piece.movementRange, leftScanCount, rightScanCount, min1_specScan, Prod.mk.injEq]
    constructor
    · rcases Classical.em (b py (px - 1) = kEmpty) with hc | hc
      · rcases Classical.em ((0 : Int) ≤ px - 1) with ha | ha
        · rw [if_pos ⟨by omega, hc⟩, if_pos ⟨ha, by unfold kBoardSize at *; omega, hy0,
            by unfold kBoardSize at *; omega, hc⟩]
        · rw [if_neg (by rintro ⟨h1, _⟩; omega), if_neg (by rintro ⟨h1, _⟩; exact ha h1)]
          rfl
      · rw [if_neg (by rintro ⟨_, h2⟩; exact hc h2),
          if_neg (by rintro ⟨_, _, _, _, h5⟩; exact hc h5)]
        rfl
    · rcases Classical.em (b py (px + psz) = kEmpty) with hc | hc
      · rcases Classical.em (px + psz < kBoardSize) with ha | ha
        · rw [if_pos ⟨ha, hc⟩, if_pos ⟨by omega, ha, hy0, by unfold kBoardSize at *; omega, hc⟩]
        · rw [if_neg (by rintro ⟨h1, _⟩; exact ha h1), if_neg (by rintro ⟨_, h2, _⟩; exact ha h2)]
      · rw [if_neg (by rintro ⟨_, h2⟩; exact hc h2),
          if_neg (by rintro ⟨_, _, _, _, h5⟩; exact hc h5)]
  | kVert =>
    dsimp only [extents] at hx0 hy0 hxe hye
    simp only [Piece.movementRange, leftScanCount, rightScanCount, min1_specScan, Prod.mk.injEq]
    constructor
    · rcases Classical.em (b (py - 1) px = kEmpty) with hc | hc
      · rcases Classical.em ((0 : Int) ≤ py - 1) with ha | ha
        · rw [if_pos ⟨by omega, hc⟩, if_pos ⟨hx0, by unfold kBoardSize at *; omega, ha,
            by unfold kBoardSize at *; omega, hc⟩]
        · rw [if_neg (by rintro ⟨h1, _⟩; omega), if_neg (by rintro ⟨_, _, h3, _⟩; exact ha h3)]
          rfl
      · rw [if_neg (by rintro ⟨_, h2⟩; exact hc h2),
          if_neg (by rintro ⟨_, _, _, _, h5⟩; exact hc h5)]
        rfl
    · rcases Classical.em (b (py + psz) px = kEmpty) with hc | hc
      · rcases Classical.em (py + psz < kBoardSize) with ha | ha
        · rw [if_pos ⟨ha, hc⟩, if_pos ⟨hx0, by unfold kBoardSize at *; omega, by omega, ha, hc⟩]
        · rw [if_neg (by rintro ⟨h1, _⟩; exact ha h1), if_neg (by rintro ⟨_, _, _, h4, _⟩; exact ha h4)]
      · rw [if_neg (by rintro ⟨_, h2⟩; exact hc h2),
          if_neg (by rintro ⟨_, _, _, _, h5⟩; exact hc h5)]

/-- Witness for `movementRange_clamped` at a concrete piece and the board
it is rendered on. -/
theorem movementRange_clamped_witness :
    InBoundsP ⟨2, 3, 2, .kHoriz⟩ ∧ (1 : Int) ≤ (2 : Int) ∧
      Piece.movementRange ⟨2, 3, 2, .kHoriz⟩ emptyBuf =
        (-((min 1 (leftScanCount ⟨2, 3, 2, .kHoriz⟩ emptyBuf) : Nat) : Int),
          ((min 1 (rightScanCount ⟨2, 3, 2, .kHoriz⟩ emptyBuf) : Nat) : Int)) :=
  ⟨by decide, by decide, movementRange_clamped _ emptyBuf (by decide) (by decide)⟩

/-! ### Board geometry: footprints, rendering, and overlap -/

theorem stateMarker_ne_kEmpty (i : Nat) : stateMarker i ≠ kEmpty := by
  unfold stateMarker kEmpty
  split
  · decide
  · intro h
    have hv : (Char.ofNat (65 + i)).val.toNat = ('.' : Char).val.toNat := by rw [h]
    have hdot : ('.' : Char).val.toNat = 46 := rfl
    rw [hdot] at hv
    unfold Char.ofNat at hv
    rcases Classical.em ((65 + i).isValidChar) with hval | hval
    · rw [dif_pos hval] at hv
      unfold Char.ofNatAux at hv
      simp only [UInt32.toNat, BitVec.toNat_ofNatLt] at hv
      omega
    · rw [dif_neg hval] at hv
      simp only [UInt32.toNat, BitVec.toNat_ofNatLt] at hv
      omega

theorem mem_cellsFrom_horiz (a b : Int) :
    ∀ (n : Nat) (cx cy : Int),
      ((a, b) ∈ Piece.cellsFrom cx cy .kHoriz n ↔ b = cy ∧ cx ≤ a ∧ a < cx + n) := by
  intro n
  induction n with
  | zero => intro cx cy; simp [Piece.cellsFrom]
  | succ k ih =>
    intro cx cy
    simp only [Piece.cellsFrom, List.mem_cons, ih (cx + 1) cy, Prod.mk.injEq]
    constructor
    · rintro (⟨h1, h2⟩ | ⟨h1, h2, h3⟩)
      · exact ⟨h2, by omega, by omega⟩
      · exact ⟨h1, by omega, by omega⟩
    · rintro ⟨h1, h2, h3⟩
      rcases Classical.em (a = cx) with he | he
      · exact Or.inl ⟨he, h1⟩
      · exact Or.inr ⟨h1, by omega, by omega⟩

theorem mem_cellsFrom_vert (a b : Int) :
    ∀ (n : Nat) (cx cy : Int),
      ((a, b) ∈ Piece.cellsFrom cx cy .kVert n ↔ a = cx ∧ cy ≤ b ∧ b < cy + n) := by
  intro n
  induction n with
  | zero => intro cx cy; simp [Piece.cellsFrom]
  | succ k ih =>
    intro cx cy
    simp only [Piece.cellsFrom, List.mem_cons, ih cx (cy + 1), Prod.mk.injEq]
    constructor
    · rintro (⟨h1, h2⟩ | ⟨h1, h2, h3⟩)
      · exact ⟨h1, by omega, by omega⟩
      · exact ⟨h1, by omega, by omega⟩
    · rintro ⟨h1, h2, h3⟩
      rcases Classical.em (b = cy) with he | he
      · exact Or.inl ⟨h1, he⟩
      · exact Or.inr ⟨h1, by omega, by omega⟩

/-- Drawing a footprint whose cells are all empty succeeds and stamps
exactly those cells. -/
theorem drawAux_eq_some :
    ∀ (n : Nat) (o : Orient) (b : DrawBuf) (c : Char) (cx cy : Int),
      (∀ q ∈ Piece.cellsFrom cx cy o n, b q.2 q.1 = kEmpty) →
      ∃ b', Piece.drawAux b c cx cy o n = some b' ∧
        ∀ yy xx, b' yy xx = if (xx, yy) ∈ Piece.cellsFrom cx cy o n then c else b yy xx := by
  intro n
  induction n with
  | zero =>
    intro o b c cx cy _
    refine ⟨b, ?_, ?_⟩
    · cases o <;> rfl
    · intro yy xx
      cases o <;> simp [Piece.cellsFrom]
  | succ k ih =>
    intro o b c cx cy hemp
    cases o with
    | kHoriz =>
      have hhead : b cy cx = kEmpty := hemp (cx, cy) (by simp [Piece.cellsFrom])
      obtain ⟨b', hb', hchar⟩ := ih .kHoriz (bufSet b cy cx c) c (cx + 1) cy (by
        rintro ⟨qa, qb⟩ hq
        have hq' := (mem_cellsFrom_horiz qa qb k (cx + 1) cy).mp hq
        have hbs : bufSet b cy cx c qb qa = b qb qa := by
          unfold bufSet
          rw [if_neg]
          rintro ⟨h1, h2⟩
          omega
        rw [hbs]
        exact hemp (qa, qb) (by
          rw [mem_cellsFrom_horiz]
          refine ⟨hq'.1, by omega, by omega⟩))
      refine ⟨b', ?_, ?_⟩
      · show Piece.drawAux b c cx cy .kHoriz (k + 1) = some b'
        unfold Piece.drawAux
        rw [if_neg (fun hne => hne hhead)]
        exact hb'
      · intro yy xx
        rw [hchar yy xx]
        simp only [mem_cellsFrom_horiz]
        unfold bufSet
        rcases Classical.em (yy = cy ∧ cx + 1 ≤ xx ∧ xx < cx + 1 + (k : Int)) with ha | ha
        · rw [if_pos ha, if_pos ⟨ha.1, by omega, by omega⟩]
        · rw [if_neg ha]
          rcases Classical.em (yy = cy ∧ xx = cx) with hb2 | hb2
          · rw [if_pos hb2, if_pos ⟨hb2.1, by omega, by omega⟩]
          · rw [if_neg hb2, if_neg (by
              rintro ⟨g1, g2, g3⟩
              rcases Classical.em (xx = cx) with he | he
              · exact hb2 ⟨g1, he⟩
              · exact ha ⟨g1, by omega, by omega⟩)]
    | kVert =>
      have hhead : b cy cx = kEmpty := hemp (cx, cy) (by simp [Piece.cellsFrom])
      obtain ⟨b', hb', hchar⟩ := ih .kVert (bufSet b cy cx c) c cx (cy + 1) (by
        rintro ⟨qa, qb⟩ hq
        have hq' := (mem_cellsFrom_vert qa qb k cx (cy + 1)).mp hq
        have hbs : bufSet b cy cx c qb qa = b qb qa := by
          unfold bufSet
          rw [if_neg]
          rintro ⟨h1, h2⟩
          omega
        rw [hbs]
        exact hemp (qa, qb) (by
          rw [mem_cellsFrom_vert]
          refine ⟨hq'.1, by omega, by omega⟩))
      refine ⟨b', ?_, ?_⟩
      · show Piece.drawAux b c cx cy .kVert (k + 1) = some b'
        unfold Piece.drawAux
        rw [if_neg (fun hne => hne hhead)]
        exact hb'
      · intro yy xx
        rw [hchar yy xx]
        simp only [mem_cellsFrom_vert]
        unfold bufSet
        rcases Classical.em (xx = cx ∧ cy + 1 ≤ yy ∧ yy < cy + 1 + (k : Int)) with ha | ha
        · rw [if_pos ha, if_pos ⟨ha.1, by omega, by omega⟩]
        · rw [if_neg ha]
          rcases Classical.em (yy = cy ∧ xx = cx) with hb2 | hb2
          · rw [if_pos hb2, if_pos ⟨hb2.2, by omega, by omega⟩]
          · rw [if_neg hb2, if_neg (by
              rintro ⟨g1, g2, g3⟩
              rcases Classical.em (yy = cy) with he | he
              · exact hb2 ⟨he, g1⟩
              · exact ha ⟨g1, by omega, by omega⟩)]

/-- `Piece::Draw` on a buffer where the piece's footprint is empty:
succeeds and stamps exactly the footprint. -/
theorem pieceDraw_eq_some (p : Piece) (b : DrawBuf) (c : Char)
    (hemp : ∀ q ∈ Piece.cells p, b q.2 q.1 = kEmpty) :
    ∃ b', Piece.draw p b c = some b' ∧
      ∀ yy xx, b' yy xx = if (xx, yy) ∈ Piece.cells p then c else b yy xx :=
  drawAux_eq_some p.size.toNat p.orient b c p.x p.y hemp

/-- Folding `Piece::Draw` over indexed pieces that are pairwise disjoint
and fit in the empty part of the base buffer: succeeds, and a cell of the
result is empty iff it was empty before and no drawn piece covers it. -/
theorem drawFold_eq_some :
    ∀ (l : List (Nat × Piece)) (b : DrawBuf),
      (∀ ip ∈ l, ∀ q ∈ Piece.cells ip.2, b q.2 q.1 = kEmpty) →
      l.Pairwise (fun ip jp => PieceDisj ip.2 jp.2) →
      ∃ b',
        l.foldl (fun ob ip => ob.bind fun bb => Piece.draw ip.2 bb (stateMarker ip.1)) (some b) =
          some b' ∧
        ∀ yy xx,
          (b' yy xx = kEmpty ↔ b yy xx = kEmpty ∧ ∀ ip ∈ l, (xx, yy) ∉ Piece.cells ip.2) := by
  intro l
  induction l with
  | nil =>
    intro b _ _
    exact ⟨b, rfl, by simp⟩
  | cons hd tl ih =>
    intro b hemp hdisj
    obtain ⟨b₁, hb₁, hchar₁⟩ :=
      pieceDraw_eq_some hd.2 b (stateMarker hd.1) (hemp hd (List.mem_cons_self hd tl))
    have hdisj' := List.pairwise_cons.mp hdisj
    obtain ⟨b', hb', hchar'⟩ := ih b₁ (by
      rintro jp hjp ⟨qa, qb⟩ hq
      rw [hchar₁ qb qa, if_neg (fun hmem => hdisj'.1 jp hjp (qa, qb) hmem hq)]
      exact hemp jp (List.mem_cons_of_mem hd hjp) (qa, qb) hq) hdisj'.2
    refine ⟨b', ?_, ?_⟩
    · show List.foldl _ ((some b).bind fun bb => Piece.draw hd.2 bb (stateMarker hd.1)) tl = _
      show List.foldl _ (Piece.draw hd.2 b (stateMarker hd.1)) tl = _
      rw [hb₁]
      exact hb'
    · intro yy xx
      rw [hchar' yy xx, hchar₁ yy xx]
      rcases Classical.em ((xx, yy) ∈ Piece.cells hd.2) with hm | hm
      · rw [if_pos hm]
        constructor
        · intro h
          exact absurd h.1 (stateMarker_ne_kEmpty hd.1)
        · rintro ⟨_, hforall⟩
          exact absurd hm (hforall hd (List.mem_cons_self hd tl))
      · rw [if_neg hm]
        constructor
        · rintro ⟨h1, h2⟩
          refine ⟨h1, ?_⟩
          intro ip hip
          rcases List.mem_cons.mp hip with rfl | hip'
          · exact hm
          · exact h2 ip hip'
        · rintro ⟨h1, h2⟩
          exact ⟨h1, fun ip hip => h2 ip (List.mem_cons_of_mem hd hip)⟩

/-- `State::Draw` on a state with pairwise non-overlapping pieces:
rendering succeeds, and a cell of the rendered board is empty iff no piece
covers it. -/
theorem draw_eq_some_of_disj (s : State) (hdisj : Disj s) :
    ∃ b, s.draw = some b ∧
      ∀ yy xx, (b yy xx = kEmpty ↔ ∀ p ∈ s.pieces, (xx, yy) ∉ Piece.cells p) := by
  have hdisj' : s.pieces.enum.Pairwise (fun ip jp => PieceDisj ip.2 jp.2) := by
    have h0 : Disj s := hdisj
    unfold Disj at h0
    rw [← List.enum_map_snd s.pieces] at h0
    exact List.pairwise_map.mp h0
  obtain ⟨b, hb, hchar⟩ := drawFold_eq_some s.pieces.enum emptyBuf
    (by intro ip _ q _; rfl) hdisj'
  refine ⟨b, hb, ?_⟩
  intro yy xx
  rw [hchar yy xx]
  constructor
  · rintro ⟨_, h2⟩
    intro p hp
    rw [← List.enum_map_snd s.pieces] at hp
    obtain ⟨ip, hip, hip2⟩ := List.mem_map.mp hp
    exact hip2 ▸ h2 ip hip
  · intro h
    refine ⟨rfl, ?_⟩
    intro ip hip
    refine h ip.2 ?_
    have := List.mem_map_of_mem Prod.snd hip
    rwa [List.enum_map_snd] at this

/-! ### Neighbors: decomposition and preservation lemmas -/

theorem mem_intRange (lo hi δ : Int) : δ ∈ intRange lo hi ↔ lo ≤ δ ∧ δ ≤ hi := by
  unfold intRange
  simp only [List.mem_map, List.mem_range]
  constructor
  · rintro ⟨k, hk, rfl⟩
    omega
  · rintro ⟨h1, h2⟩
    exact ⟨(δ - lo).toNat, by omega, by omega⟩


/-- The movement range is always within one cell in each direction. -/
theorem movementRange_bounds (p : Piece) (b : DrawBuf) :
    -1 ≤ (Piece.movementRange p b).1 ∧ (Piece.movementRange p b).1 ≤ 0 ∧
      0 ≤ (Piece.movementRange p b).2 ∧ (Piece.movementRange p b).2 ≤ 1 := by
  obtain ⟨px, py, ps, po⟩ := p
  cases po <;> unfold Piece.movementRange <;> dsimp only <;> split_ifs <;> norm_num

/-- A nonzero delta within the movement range is -1 (with the negative
scan open) or 1 (with the positive scan open). -/
theorem movementRange_delta_cases (p : Piece) (b : DrawBuf) (δ : Int)
    (h1 : (Piece.movementRange p b).1 ≤ δ) (h2 : δ ≤ (Piece.movementRange p b).2) (h0 : δ ≠ 0) :
    (δ = -1 ∧ (Piece.movementRange p b).1 = -1) ∨ (δ = 1 ∧ (Piece.movementRange p b).2 = 1) := by
  have hb := movementRange_bounds p b
  omega

theorem movementRange_neg_horiz (p : Piece) (b : DrawBuf) (ho : p.orient = .kHoriz)
    (h : (Piece.movementRange p b).1 = -1) : p.x - 1 ≥ 0 ∧ b p.y (p.x - 1) = kEmpty := by
  unfold Piece.movementRange at h
  rw [ho] at h
  dsimp only at h
  by_cases hg : p.x - 1 ≥ 0 ∧ b p.y (p.x - 1) = kEmpty
  · exact hg
  · rw [if_neg hg] at h
    exact absurd h (by norm_num)

theorem movementRange_pos_horiz (p : Piece) (b : DrawBuf) (ho : p.orient = .kHoriz)
    (h : (Piece.movementRange p b).2 = 1) :
    p.x + p.size < kBoardSize ∧ b p.y (p.x + p.size) = kEmpty := by
  unfold Piece.movementRange at h
  rw [ho] at h
  dsimp only at h
  by_cases hg : p.x + p.size < kBoardSize ∧ b p.y (p.x + p.size) = kEmpty
  · exact hg
  · rw [if_neg hg] at h
    exact absurd h (by norm_num)

theorem movementRange_neg_vert (p : Piece) (b : DrawBuf) (ho : p.orient = .kVert)
    (h : (Piece.movementRange p b).1 = -1) : p.y - 1 ≥ 0 ∧ b (p.y - 1) p.x = kEmpty := by
  unfold Piece.movementRange at h
  rw [ho] at h
  dsimp only at h
  by_cases hg : p.y - 1 ≥ 0 ∧ b (p.y - 1) p.x = kEmpty
  · exact hg
  · rw [if_neg hg] at h
    exact absurd h (by norm_num)

theorem movementRange_pos_vert (p : Piece) (b : DrawBuf) (ho : p.orient = .kVert)
    (h : (Piece.movementRange p b).2 = 1) :
    p.y + p.size < kBoardSize ∧ b (p.y + p.size) p.x = kEmpty := by
  unfold Piece.movementRange at h
  rw [ho] at h
  dsimp only at h
  by_cases hg : p.y + p.size < kBoardSize ∧ b (p.y + p.size) p.x = kEmpty
  · exact hg
  · rw [if_neg hg] at h
    exact absurd h (by norm_num)

theorem mem_cells_move_pos_horiz (p : Piece) (ho : p.orient = .kHoriz) (qa qb : Int)
    (hq : (qa, qb) ∈ Piece.cells (Piece.move p 1)) :
    (qa, qb) ∈ Piece.cells p ∨ (qa = p.x + p.size ∧ qb = p.y) := by
  unfold Piece.cells Piece.move at *
  rw [ho] at hq ⊢
  dsimp only at hq ⊢
  rw [mem_cellsFrom_horiz] at hq
  rw [mem_cellsFrom_horiz]
  omega

theorem mem_cells_move_neg_horiz (p : Piece) (ho : p.orient = .kHoriz) (qa qb : Int)
    (hq : (qa, qb) ∈ Piece.cells (Piece.move p (-1))) :
    (qa, qb) ∈ Piece.cells p ∨ (qa = p.x - 1 ∧ qb = p.y) := by
  unfold Piece.cells Piece.move at *
  rw [ho] at hq ⊢
  dsimp only at hq ⊢
  rw [mem_cellsFrom_horiz] at hq
  rw [mem_cellsFrom_horiz]
  omega

theorem mem_cells_move_pos_vert (p : Piece) (ho : p.orient = .kVert) (qa qb : Int)
    (hq : (qa, qb) ∈ Piece.cells (Piece.move p 1)) :
    (qa, qb) ∈ Piece.cells p ∨ (qa = p.x ∧ qb = p.y + p.size) := by
  unfold Piece.cells Piece.move at *
  rw [ho] at hq ⊢
  dsimp only at hq ⊢
  rw [mem_cellsFrom_vert] at hq
  rw [mem_cellsFrom_vert]
  omega

theorem mem_cells_move_neg_vert (p : Piece) (ho : p.orient = .kVert) (qa qb : Int)
    (hq : (qa, qb) ∈ Piece.cells (Piece.move p (-1))) :
    (qa, qb) ∈ Piece.cells p ∨ (qa = p.x ∧ qb = p.y - 1) := by
  unfold Piece.cells Piece.move at *
  rw [ho] at hq ⊢
  dsimp only at hq ⊢
  rw [mem_cellsFrom_vert] at hq
  rw [mem_cellsFrom_vert]
  omega

/-- Canonicalization permutes the pieces. -/
theorem canonicalize_perm (s : State) : (State.canonicalize s).pieces.Perm s.pieces := by
  unfold State.canonicalize
  match s with
  | ⟨[]⟩ => exact List.Perm.refl _
  | ⟨h :: t⟩ => exact List.Perm.cons h (t.perm_insertionSort Piece.le)

theorem pieceDisj_symm {a b : Piece} (h : PieceDisj a b) : PieceDisj b a := by
  intro q hq hqa
  exact h q hqa hq

theorem canonicalize_disj (s : State) (h : Disj s) : Disj (State.canonicalize s) := by
  unfold Disj at *
  exact ((canonicalize_perm s).pairwise_iff (fun {a b} hab => pieceDisj_symm hab)).mpr h

/-- Decomposition of one legal move: a step from `s` is a canonicalized
copy of `s` with one piece moved by a nonzero delta inside its movement
range on the rendered board of `s`. -/
theorem step_decompose (s n : State) (hstep : Step s n) :
    ∃ b, s.draw = some b ∧ ∃ i p δ, s.pieces[i]? = some p ∧ δ ≠ 0 ∧
      (Piece.movementRange p b).1 ≤ δ ∧ δ ≤ (Piece.movementRange p b).2 ∧
      n = State.canonicalize ⟨s.pieces.set i (Piece.move p δ)⟩ := by
  unfold Step State.neighbors at hstep
  split at hstep
  · simp at hstep
  · rename_i b heq
    simp only [Option.getD_some, List.mem_flatMap, List.mem_map, List.mem_filter,
      decide_eq_true_eq] at hstep
    obtain ⟨ip, hip, δ, ⟨hδr, hδ0⟩, hn⟩ := hstep
    refine ⟨b, heq, ip.1, ip.2, δ, List.mem_enum_iff_getElem?.mp hip, hδ0, ?_, ?_, hn.symm⟩
    · exact ((mem_intRange _ _ δ).mp hδr).1
    · exact ((mem_intRange _ _ δ).mp hδr).2

/-- Every cell of the moved piece is either a cell of the original piece
or a cell left empty by the whole board render (the entered cell, which
the movement-range guard checked). -/
theorem entered_free (s : State) (b : DrawBuf)
    (hchar : ∀ yy xx, (b yy xx = kEmpty ↔ ∀ p' ∈ s.pieces, (xx, yy) ∉ Piece.cells p'))
    (p : Piece) (δ : Int) (hδ0 : δ ≠ 0)
    (h1 : (Piece.movementRange p b).1 ≤ δ) (h2 : δ ≤ (Piece.movementRange p b).2) :
    ∀ qa qb, (qa, qb) ∈ Piece.cells (Piece.move p δ) →
      (qa, qb) ∈ Piece.cells p ∨ ∀ p' ∈ s.pieces, (qa, qb) ∉ Piece.cells p' := by
  intro qa qb hq
  rcases movementRange_delta_cases p b δ h1 h2 hδ0 with ⟨hδ, hneg⟩ | ⟨hδ, hpos⟩ <;> subst hδ
  · cases ho : p.orient with
    | kHoriz =>
      rcases mem_cells_move_neg_horiz p ho qa qb hq with hin | ⟨ha, hb⟩
      · exact Or.inl hin
      · subst ha; subst hb
        have hg := movementRange_neg_horiz p b ho hneg
        exact Or.inr ((hchar p.y (p.x - 1)).mp hg.2)
    | kVert =>
      rcases mem_cells_move_neg_vert p ho qa qb hq with hin | ⟨ha, hb⟩
      · exact Or.inl hin
      · subst ha; subst hb
        have hg := movementRange_neg_vert p b ho hneg
        exact Or.inr ((hchar (p.y - 1) p.x).mp hg.2)
  · cases ho : p.orient with
    | kHoriz =>
      rcases mem_cells_move_pos_horiz p ho qa qb hq with hin | ⟨ha, hb⟩
      · exact Or.inl hin
      · subst ha; subst hb
        have hg := movementRange_pos_horiz p b ho hpos
        exact Or.inr ((hchar p.y (p.x + p.size)).mp hg.2)
    | kVert =>
      rcases mem_cells_move_pos_vert p ho qa qb hq with hin | ⟨ha, hb⟩
      · exact Or.inl hin
      · subst ha; subst hb
        have hg := movementRange_pos_vert p b ho hpos
        exact Or.inr ((hchar (p.y + p.size) p.x).mp hg.2)

/-- Moving one piece by a delta inside its movement range keeps the
pieces pairwise non-overlapping. -/
theorem set_moved_disj (s : State) (hdisj : Disj s) (b : DrawBuf)
    (hchar : ∀ yy xx, (b yy xx = kEmpty ↔ ∀ p' ∈ s.pieces, (xx, yy) ∉ Piece.cells p'))
    (i : Nat) (p : Piece) (hip : s.pieces[i]? = some p) (δ : Int) (hδ0 : δ ≠ 0)
    (h1 : (Piece.movementRange p b).1 ≤ δ) (h2 : δ ≤ (Piece.movementRange p b).2) :
    Disj ⟨s.pieces.set i (Piece.move p δ)⟩ := by
  obtain ⟨hilen, hieq⟩ := List.getElem?_eq_some_iff.mp hip
  have hfree := entered_free s b hchar p δ hδ0 h1 h2
  have hpw := List.pairwise_iff_getElem.mp hdisj
  show List.Pairwise PieceDisj (s.pieces.set i (Piece.move p δ))
  rw [List.pairwise_iff_getElem]
  intro a c ha hc hac
  have ha2 : a < s.pieces.length := by
    rw [List.length_set] at ha
    exact ha
  have hc2 : c < s.pieces.length := by
    rw [List.length_set] at hc
    exact hc
  rw [List.getElem_set, List.getElem_set]
  split_ifs with hia hic hic
  · exfalso
    omega
  · rintro ⟨qa, qb⟩ hq hq2
    rcases hfree qa qb hq with hin | hfr
    · refine hpw i c hilen hc2 (by omega) (qa, qb) ?_ hq2
      rw [hieq]
      exact hin
    · exact hfr _ (List.getElem_mem hc2) hq2
  · rintro ⟨qa, qb⟩ hq hq2
    rcases hfree qa qb hq2 with hin | hfr
    · refine hpw a i ha2 hilen (by omega) (qa, qb) hq ?_
      rw [hieq]
      exact hin
    · exact hfr _ (List.getElem_mem ha2) hq
  · exact hpw a c ha2 hc2 hac

/-! ### C3: neighbors preserve non-overlap -/

/-- C3: for every state with in-bounds, pairwise non-overlapping pieces,
`Neighbors` succeeds and every produced state again has pairwise
non-overlapping pieces, so rendering any neighbor succeeds (the fatal
clash branch of `Piece::Draw` is unreachable). -/
theorem neighbors_preserve_disjoint (s : State) (hin : InBounds s) (hdisj : Disj s) :
    ∃ l, State.neighbors s = some l ∧ ∀ n ∈ l, Disj n ∧ (State.draw n).isSome := by
  obtain ⟨b, hb, hchar⟩ := draw_eq_some_of_disj s hdisj
  have hex : ∃ l, State.neighbors s = some l := by
    unfold State.neighbors
    rw [hb]
    exact ⟨_, rfl⟩
  obtain ⟨l, hl⟩ := hex
  refine ⟨l, hl, ?_⟩
  intro n hn
  · have hstep : Step s n := by
      unfold Step
      rw [hl]
      exact hn
    obtain ⟨b', hb', i, p, δ, hip, hδ0, h1, h2, hn'⟩ := step_decompose s n hstep
    have hbb : b' = b := by
      rw [hb] at hb'
      exact (Option.some.inj hb').symm
    subst hbb
    have hdj := set_moved_disj s hdisj b' hchar i p hip δ hδ0 h1 h2
    have hdn : Disj n := by
      rw [hn']
      exact canonicalize_disj _ hdj
    refine ⟨hdn, ?_⟩
    obtain ⟨bn, hbn, _⟩ := draw_eq_some_of_disj n hdn
    rw [hbn]
    rfl

/-- Witness for `neighbors_preserve_disjoint` at a concrete state. -/
theorem neighbors_preserve_disjoint_witness :
    InBounds ⟨[⟨0, 2, 2, .kHoriz⟩, ⟨3, 0, 2, .kVert⟩]⟩ ∧
      Disj ⟨[⟨0, 2, 2, .kHoriz⟩, ⟨3, 0, 2, .kVert⟩]⟩ ∧
      ∃ l, State.neighbors ⟨[⟨0, 2, 2, .kHoriz⟩, ⟨3, 0, 2, .kVert⟩]⟩ = some l ∧
        ∀ n ∈ l, Disj n ∧ (State.draw n).isSome :=
  ⟨by decide, by decide, neighbors_preserve_disjoint _ (by decide) (by decide)⟩

/-! ### C10: movement is clamped to one cell and stays on the board -/

theorem inBoundsP_move (p : Piece) (b : DrawBuf) (hpin : InBoundsP p) (δ : Int) (hδ0 : δ ≠ 0)
    (h1 : (Piece.movementRange p b).1 ≤ δ) (h2 : δ ≤ (Piece.movementRange p b).2) :
    InBoundsP (Piece.move p δ) := by
  obtain ⟨px, py, ps, po⟩ := p
  rcases movementRange_delta_cases _ b δ h1 h2 hδ0 with ⟨hδe, hg⟩ | ⟨hδe, hg⟩ <;> subst hδe <;>
    cases po
  · have hgg := movementRange_neg_horiz _ b rfl hg
    unfold InBoundsP extents at *
    unfold Piece.move
    dsimp only at *
    omega
  · have hgg := movementRange_neg_vert _ b rfl hg
    unfold InBoundsP extents at *
    unfold Piece.move
    dsimp only at *
    omega
  · have hgg := movementRange_pos_horiz _ b rfl hg
    unfold InBoundsP extents at *
    unfold Piece.move
    dsimp only at *
    omega
  · have hgg := movementRange_pos_vert _ b rfl hg
    unfold InBoundsP extents at *
    unfold Piece.move
    dsimp only at *
    omega

/-- C10: `MovementRange` always lies within `-1 ≤ minDelta ≤ 0 ≤ maxDelta ≤ 1`;
consequently every neighbor is its parent with exactly one piece moved by
exactly one cell (delta -1 or +1), and from an in-bounds parent every piece
of every neighbor stays within the 6x6 grid. -/
theorem movementRange_bounds_and_unit_moves :
    (∀ (p : Piece) (b : DrawBuf),
        -1 ≤ (Piece.movementRange p b).1 ∧ (Piece.movementRange p b).1 ≤ 0 ∧
          0 ≤ (Piece.movementRange p b).2 ∧ (Piece.movementRange p b).2 ≤ 1) ∧
    (∀ (s : State) (l : List State), InBounds s → State.neighbors s = some l →
      ∀ n ∈ l,
        (∃ i p δ, s.pieces[i]? = some p ∧ (δ = -1 ∨ δ = 1) ∧
            n = State.canonicalize ⟨s.pieces.set i (Piece.move p δ)⟩) ∧
        InBounds n) := by
  constructor
  · exact movementRange_bounds
  · intro s l hin hl n hn
    have hstep : Step s n := by
      unfold Step
      rw [hl]
      exact hn
    obtain ⟨b, hb, i, p, δ, hip, hδ0, h1, h2, hn'⟩ := step_decompose s n hstep
    have hcases := movementRange_delta_cases p b δ h1 h2 hδ0
    refine ⟨⟨i, p, δ, hip, ?_, hn'⟩, ?_⟩
    · rcases hcases with ⟨h, _⟩ | ⟨h, _⟩
      · exact Or.inl h
      · exact Or.inr h
    · rw [hn']
      intro q hq
      have hq' : q ∈ s.pieces.set i (Piece.move p δ) :=
        (canonicalize_perm ⟨s.pieces.set i (Piece.move p δ)⟩).mem_iff.mp hq
      rcases List.mem_or_eq_of_mem_set hq' with hmem | hqe
      · exact hin q hmem
      · subst hqe
        obtain ⟨hilen, hieq⟩ := List.getElem?_eq_some_iff.mp hip
        have hp : p ∈ s.pieces := by
          rw [← hieq]
          exact s.pieces.getElem_mem hilen
        exact inBoundsP_move p b (hin p hp) δ hδ0 h1 h2

/-- Witness for the conditional part of
`movementRange_bounds_and_unit_moves` at a concrete state. -/
theorem movementRange_bounds_and_unit_moves_witness :
    InBounds ⟨[⟨0, 0, 2, .kHoriz⟩]⟩ ∧
      State.neighbors ⟨[⟨0, 0, 2, .kHoriz⟩]⟩ = some [⟨[⟨1, 0, 2, .kHoriz⟩]⟩] ∧
      ∀ n ∈ [(⟨[⟨1, 0, 2, .kHoriz⟩]⟩ : State)],
        (∃ i p δ, (⟨[⟨0, 0, 2, .kHoriz⟩]⟩ : State).pieces[i]? = some p ∧ (δ = -1 ∨ δ = 1) ∧
            n = State.canonicalize ⟨(⟨[⟨0, 0, 2, .kHoriz⟩]⟩ : State).pieces.set i (Piece.move p δ)⟩) ∧
        InBounds n :=
  ⟨by decide, by decide,
    movementRange_bounds_and_unit_moves.2 ⟨[⟨0, 0, 2, .kHoriz⟩]⟩ _ (by decide) (by decide)⟩

/-! ### BFS bookkeeping: lookup, trace, and path lemmas -/

/-- The keys of the backpointer map, in insertion order. -/
def keys (prev : List (State × State)) : List State := prev.map Prod.fst

/-- The states currently on the frontier, in queue order. -/
def qStates (q : List (State × Nat)) : List State := q.map Prod.fst

theorem lookupS_eq_none_iff (prev : List (State × State)) (k : State) :
    lookupS prev k = none ↔ k ∉ keys prev := by
  induction prev with
  | nil => simp [lookupS, keys]
  | cons hd tl ih =>
    unfold lookupS keys
    rcases Classical.em (hd.1 = k) with he | he
    · rw [if_pos he]
      simp [keys, he.symm]
    · rw [if_neg he]
      rw [ih]
      unfold keys
      simp only [List.map_cons, List.mem_cons]
      constructor
      · intro h hc
        rcases hc with hc | hc
        · exact he hc.symm
        · exact h hc
      · intro h hc
        exact h (Or.inr hc)

theorem lookupS_append_some (prev ext : List (State × State)) (k : State) (v : State)
    (h : lookupS prev k = some v) : lookupS (prev ++ ext) k = some v := by
  induction prev with
  | nil => simp [lookupS] at h
  | cons hd tl ih =>
    obtain ⟨hk, hv⟩ := hd
    simp only [lookupS, List.cons_append] at h ⊢
    rcases Classical.em (hk = k) with he | he
    · rw [if_pos he] at h ⊢
      exact h
    · rw [if_neg he] at h ⊢
      exact ih h

theorem lookupS_append_fresh (prev ext : List (State × State)) (k v : State)
    (h : k ∉ keys prev) : lookupS (prev ++ (k, v) :: ext) k = some v := by
  induction prev with
  | nil =>
    simp [lookupS]
  | cons hd tl ih =>
    obtain ⟨hk, hv⟩ := hd
    unfold keys at h
    simp only [List.map_cons, List.mem_cons] at h
    simp only [lookupS, List.cons_append]
    rw [if_neg (fun he => h (Or.inl he.symm))]
    exact ih (fun hc => h (Or.inr hc))

theorem traceAux_acc (f : Nat) :
    ∀ (prev : List (State × State)) (s : State) (acc : List State),
      traceAux f prev s acc = (traceAux f prev s []).map (fun core => core ++ acc.reverse) := by
  induction f with
  | zero => intro prev s acc; rfl
  | succ f ih =>
    intro prev s acc
    unfold traceAux
    rcases Classical.em (s.pieces = []) with he | he
    · rw [if_pos he, if_pos he]
      simp
    · rw [if_neg he, if_neg he]
      rcases hl : lookupS prev s with _ | v
      · rfl
      · dsimp only
        rw [ih prev v (acc ++ [s]), ih prev v ([] ++ [s])]
        simp only [Option.map_map, List.nil_append]
        rcases htr : traceAux f prev v [] with _ | core
        · rfl
        · simp [List.reverse_append]

theorem traceAux_mono (f : Nat) :
    ∀ (f' : Nat), f ≤ f' →
      ∀ (prev : List (State × State)) (s : State) (acc : List State) (r : List State),
        traceAux f prev s acc = some r → traceAux f' prev s acc = some r := by
  induction f with
  | zero =>
    intro f' _ prev s acc r h
    exact absurd h (by simp [traceAux])
  | succ k ih =>
    intro f' hf prev s acc r h
    match f', hf with
    | Nat.succ f'', hf =>
      unfold traceAux at h ⊢
      rcases Classical.em (s.pieces = []) with he | he
      · rw [if_pos he] at h ⊢
        exact h
      · rw [if_neg he] at h ⊢
        rcases hl : lookupS prev s with _ | v
        · rw [hl] at h
          dsimp only at h
          exact absurd h (by simp)
        · rw [hl] at h
          dsimp only at h ⊢
          exact ih f'' (Nat.le_of_succ_le_succ hf) prev v (acc ++ [s]) r h

theorem traceAux_append (f : Nat) :
    ∀ (prev ext : List (State × State)) (s : State) (acc : List State) (r : List State),
      traceAux f prev s acc = some r → traceAux f (prev ++ ext) s acc = some r := by
  induction f with
  | zero =>
    intro prev ext s acc r h
    exact absurd h (by simp [traceAux])
  | succ k ih =>
    intro prev ext s acc r h
    unfold traceAux at h ⊢
    rcases Classical.em (s.pieces = []) with he | he
    · rw [if_pos he] at h ⊢
      exact h
    · rw [if_neg he] at h ⊢
      rcases hl : lookupS prev s with _ | v
      · rw [hl] at h
        dsimp only at h
        exact absurd h (by simp)
      · rw [hl] at h
        dsimp only at h
        rw [lookupS_append_some prev ext s v hl]
        dsimp only
        exact ih prev ext v (acc ++ [s]) r h

/-- The trace of a discovered state: a legal path from the start to the
state whose length is one more than its recorded move count. -/
def TraceOK (g : Game) (prev : List (State × State)) (s : State) (m : Nat) : Prop :=
  ∃ pth, tracePathTo prev s = some pth ∧ pth.head? = some g.start_state ∧
    pth.getLast? = some s ∧ IsPath pth ∧ pth.length = m + 1

theorem traceOK_append (g : Game) (prev ext : List (State × State)) (s : State) (m : Nat)
    (h : TraceOK g prev s m) : TraceOK g (prev ++ ext) s m := by
  obtain ⟨pth, h1, h2, h3, h4, h5⟩ := h
  refine ⟨pth, ?_, h2, h3, h4, h5⟩
  unfold tracePathTo at h1 ⊢
  have step1 := traceAux_append (prev.length + 1) prev ext s [] pth h1
  exact traceAux_mono (prev.length + 1) ((prev ++ ext).length + 1) (by simp)
    (prev ++ ext) s [] pth step1

theorem isPath_append_single :
    ∀ (pth : List State) (z n : State), IsPath pth → pth.getLast? = some z → Step z n →
      IsPath (pth ++ [n])
  | [], z, n, _, hlast, _ => by simp at hlast
  | [a], z, n, _, hlast, hstep => by
    simp only [List.getLast?_singleton, Option.some.injEq] at hlast
    subst hlast
    exact ⟨hstep, trivial⟩
  | a :: b :: r, z, n, hpath, hlast, hstep => by
    obtain ⟨hab, hrest⟩ := hpath
    rw [List.getLast?_cons_cons] at hlast
    exact ⟨hab, isPath_append_single (b :: r) z n hrest hlast hstep⟩

theorem reachIn_prepend (a b z : State) (hab : Step a b) :
    ∀ (k : Nat), ReachIn b k z → ReachIn a (k + 1) z := by
  intro k
  induction k generalizing z with
  | zero =>
    intro h
    exact ⟨a, rfl, h ▸ hab⟩
  | succ j ih =>
    rintro ⟨u, hu, hs⟩
    exact ⟨u, ih u hu, hs⟩

theorem path_reach :
    ∀ (pth : List State) (a z : State), IsPath pth → pth.head? = some a →
      pth.getLast? = some z → ReachIn a (pth.length - 1) z
  | [], a, z, _, hhead, _ => by simp at hhead
  | [w], a, z, _, hhead, hlast => by
    simp only [List.head?_cons, Option.some.injEq] at hhead
    simp only [List.getLast?_singleton, Option.some.injEq] at hlast
    subst hhead
    subst hlast
    exact rfl
  | w :: b :: r, a, z, hpath, hhead, hlast => by
    obtain ⟨hab, hrest⟩ := hpath
    simp only [List.head?_cons, Option.some.injEq] at hhead
    subst hhead
    rw [List.getLast?_cons_cons] at hlast
    have hr := path_reach (b :: r) b z hrest rfl hlast
    have := reachIn_prepend w b z hab _ hr
    simpa using this

theorem step_iff_mem (s : State) (ns : List State) (h : State.neighbors s = some ns) :
    ∀ u, Step s u ↔ u ∈ ns := by
  intro u
  unfold Step
  rw [h]
  exact Iff.rfl

theorem step_length (s t : State) (h : Step s t) : t.pieces.length = s.pieces.length := by
  obtain ⟨b, hb, i, p, δ, hip, _, _, _, hn⟩ := step_decompose s t h
  rw [hn]
  rw [(canonicalize_perm ⟨s.pieces.set i (Piece.move p δ)⟩).length_eq]
  exact List.length_set s.pieces i (Piece.move p δ)

theorem reachLE_mono (a : State) (j k : Nat) (h : j ≤ k) (t : State) :
    ReachLE a j t → ReachLE a k t := by
  rintro ⟨i, hi, hr⟩
  exact ⟨i, le_trans hi h, hr⟩

/-- Exact shortest distance from `a` to `t` (as a predicate): `t` is
reachable within `k` moves and no fewer. -/
def DistEq (a : State) (k : Nat) (t : State) : Prop :=
  ReachLE a k t ∧ ∀ j, ReachLE a j t → k ≤ j

theorem keys_append (prev : List (State × State)) (n v : State) :
    keys (prev ++ [(n, v)]) = keys prev ++ [n] := by
  simp [keys]

theorem qStates_append (q : List (State × Nat)) (n : State) (m : Nat) :
    qStates (q ++ [(n, m)]) = qStates q ++ [n] := by
  simp [qStates]

theorem mem_qStates_of_mem (q : List (State × Nat)) (e : State × Nat) (h : e ∈ q) :
    e.1 ∈ qStates q :=
  List.mem_map_of_mem Prod.fst h

theorem mem_keys_of_mem (prev : List (State × State)) (e : State × State) (h : e ∈ prev) :
    e.1 ∈ keys prev :=
  List.mem_map_of_mem Prod.fst h

/-! ### BFS level invariant -/

/-- Invariant of the inner enqueue loop of `Game::Solve`, relating the
popped state `s` (with exact distance `d`), the not-yet-processed
neighbors `ns`, the frontier `q` and the backpointer map `prev`. -/
structure EnqInv (g : Game) (s : State) (d : Nat) (ns : List State)
    (q : List (State × Nat)) (prev : List (State × State)) : Prop where
  keys_nodup : (keys prev).Nodup
  keys_ne : ∀ k ∈ keys prev, k.pieces ≠ []
  q_sub : ∀ e ∈ q, e.1 ∈ keys prev
  q_nodup : (qStates q).Nodup
  s_mem : s ∈ keys prev
  s_notq : s ∉ qStates q
  levels : ∃ qa qb, q = qa ++ qb ∧ (∀ e ∈ qa, e.2 = d) ∧ (∀ e ∈ qb, e.2 = d + 1)
  dist_q : ∀ e ∈ q, DistEq g.start_state e.2 e.1
  closed_lt : ∀ t j, j < d → ReachIn g.start_state j t →
    t ∈ keys prev ∧ t ∉ qStates q ∧ t ≠ s
  closed_le : ∀ t, ReachLE g.start_state d t → t ∈ keys prev
  png : ∀ t, t ∈ keys prev → t ∉ qStates q → t ≠ s → ¬IsGoal g t
  psucc : ∀ t, t ∈ keys prev → t ∉ qStates q → t ≠ s → ∀ u, Step t u → u ∈ keys prev
  ssucc : ∀ u, Step s u → u ∈ keys prev ∨ u ∈ ns
  trace_q : ∀ e ∈ q, TraceOK g prev e.1 e.2
  ns_step : ∀ n ∈ ns, Step s n
  s_dist : DistEq g.start_state d s
  s_trace : TraceOK g prev s d

theorem qStates_sub_keys (q : List (State × Nat)) (prev : List (State × State))
    (hsub : ∀ e ∈ q, e.1 ∈ keys prev) : ∀ t ∈ qStates q, t ∈ keys prev := by
  intro t ht
  obtain ⟨e, he, rfl⟩ := List.mem_map.mp ht
  exact hsub e he

/-- Appending a fresh key to the backpointer map extends the trace of its
predecessor by one state. -/
theorem traceOK_extend (g : Game) (prev : List (State × State)) (s n : State) (d : Nat)
    (hfresh : n ∉ keys prev) (hnne : n.pieces ≠ [])
    (hstep : Step s n) (hst : TraceOK g prev s d) :
    TraceOK g (prev ++ [(n, s)]) n (d + 1) := by
  obtain ⟨ps, hps, hhead, hlast, hpath, hlen⟩ := hst
  have h1 : traceAux (prev.length + 1) (prev ++ [(n, s)]) s [] = some ps :=
    traceAux_append _ prev [(n, s)] s [] ps hps
  have h2 : traceAux (prev.length + 1) (prev ++ [(n, s)]) s [n] = some (ps ++ [n]) := by
    rw [traceAux_acc, h1]
    simp
  refine ⟨ps ++ [n], ?_, ?_, ?_, ?_, ?_⟩
  · unfold tracePathTo
    have hlen' : (prev ++ [(n, s)]).length + 1 = (prev.length + 1) + 1 := by simp
    rw [hlen']
    unfold traceAux
    rw [if_neg hnne, lookupS_append_fresh prev [] n s hfresh]
    dsimp only
    rw [List.nil_append]
    exact h2
  · rcases ps with _ | ⟨a, tl⟩
    · simp at hhead
    · simp only [List.head?_cons, Option.some.injEq] at hhead
      subst hhead
      simp
  · simp
  · exact isPath_append_single ps s n hpath hlast hstep
  · simp [hlen]

/-- Processing one fresh neighbor preserves the enqueue-loop invariant. -/
theorem enqInv_extend (g : Game) (s : State) (d : Nat) (n : State) (ns' : List State)
    (q : List (State × Nat)) (prev : List (State × State))
    (h : EnqInv g s d (n :: ns') q prev) (hfresh : n ∉ keys prev) :
    EnqInv g s d ns' (q ++ [(n, d + 1)]) (prev ++ [(n, s)]) := by
  have hstep_n : Step s n := h.ns_step n (List.mem_cons_self n ns')
  have hnne : n.pieces ≠ [] := by
    intro hemp
    have hlen := step_length s n hstep_n
    rw [hemp] at hlen
    exact h.keys_ne s h.s_mem (List.length_eq_zero.mp hlen.symm)
  have hkeys' : keys (prev ++ [(n, s)]) = keys prev ++ [n] := keys_append prev n s
  have hq' : qStates (q ++ [(n, d + 1)]) = qStates q ++ [n] := qStates_append q n (d + 1)
  have hns : n ≠ s := by
    intro he
    exact hfresh (he ▸ h.s_mem)
  refine
    { keys_nodup := ?_, keys_ne := ?_, q_sub := ?_, q_nodup := ?_, s_mem := ?_, s_notq := ?_
      levels := ?_, dist_q := ?_, closed_lt := ?_, closed_le := ?_, png := ?_, psucc := ?_
      ssucc := ?_, trace_q := ?_, ns_step := ?_, s_dist := ?_, s_trace := ?_ }
  · rw [hkeys', List.nodup_append]
    refine ⟨h.keys_nodup, List.nodup_singleton n, ?_⟩
    intro a ha hb
    rw [List.mem_singleton] at hb
    subst hb
    exact hfresh ha
  · rw [hkeys']
    intro k hk
    rcases List.mem_append.mp hk with hk | hk
    · exact h.keys_ne k hk
    · rw [List.mem_singleton] at hk
      subst hk
      exact hnne
  · intro e he
    rw [hkeys']
    rcases List.mem_append.mp he with he | he
    · exact List.mem_append_left _ (h.q_sub e he)
    · rw [List.mem_singleton] at he
      subst he
      simp
  · rw [hq', List.nodup_append]
    refine ⟨h.q_nodup, List.nodup_singleton n, ?_⟩
    intro a ha hb
    rw [List.mem_singleton] at hb
    subst hb
    exact hfresh (qStates_sub_keys q prev h.q_sub _ ha)
  · rw [hkeys']
    exact List.mem_append_left _ h.s_mem
  · rw [hq']
    intro hc
    rcases List.mem_append.mp hc with hc | hc
    · exact h.s_notq hc
    · rw [List.mem_singleton] at hc
      exact hns hc.symm
  · obtain ⟨qa, qb, hsplit, hqa, hqb⟩ := h.levels
    refine ⟨qa, qb ++ [(n, d + 1)], by rw [hsplit, List.append_assoc], hqa, ?_⟩
    intro e he
    rcases List.mem_append.mp he with he | he
    · exact hqb e he
    · rw [List.mem_singleton] at he
      subst he
      rfl
  · intro e he
    rcases List.mem_append.mp he with he | he
    · exact h.dist_q e he
    · rw [List.mem_singleton] at he
      subst he
      constructor
      · obtain ⟨j, hj, hr⟩ := h.s_dist.1
        exact ⟨j + 1, by omega, ⟨s, hr, hstep_n⟩⟩
      · intro j hj
        by_contra hlt
        have hle : ReachLE g.start_state d n := reachLE_mono _ j d (by omega) n hj
        exact hfresh (h.closed_le n hle)
  · intro t j hj hr
    obtain ⟨hk, hnq, hts⟩ := h.closed_lt t j hj hr
    refine ⟨by rw [hkeys']; exact List.mem_append_left _ hk, ?_, hts⟩
    rw [hq']
    intro hc
    rcases List.mem_append.mp hc with hc | hc
    · exact hnq hc
    · rw [List.mem_singleton] at hc
      subst hc
      exact hfresh hk
  · intro t ht
    rw [hkeys']
    exact List.mem_append_left _ (h.closed_le t ht)
  · intro t ht htq hts
    rw [hkeys'] at ht
    rcases List.mem_append.mp ht with ht | ht
    · refine h.png t ht ?_ hts
      intro hc
      rw [hq'] at htq
      exact htq (List.mem_append_left _ hc)
    · rw [List.mem_singleton] at ht
      subst ht
      exfalso
      rw [hq'] at htq
      exact htq (List.mem_append_right _ (by simp))
  · intro t ht htq hts u hu
    rw [hkeys'] at ht ⊢
    rcases List.mem_append.mp ht with ht | ht
    · refine List.mem_append_left _ (h.psucc t ht ?_ hts u hu)
      intro hc
      rw [hq'] at htq
      exact htq (List.mem_append_left _ hc)
    · rw [List.mem_singleton] at ht
      subst ht
      exfalso
      rw [hq'] at htq
      exact htq (List.mem_append_right _ (by simp))
  · intro u hu
    rcases h.ssucc u hu with hk | hm
    · left
      rw [hkeys']
      exact List.mem_append_left _ hk
    · rcases List.mem_cons.mp hm with rfl | hm'
      · left
        rw [hkeys']
        exact List.mem_append_right _ (by simp)
      · right
        exact hm'
  · intro e he
    rcases List.mem_append.mp he with he | he
    · exact traceOK_append g prev [(n, s)] e.1 e.2 (h.trace_q e he)
    · rw [List.mem_singleton] at he
      subst he
      exact traceOK_extend g prev s n d hfresh hnne hstep_n h.s_trace
  · intro m hm
    exact h.ns_step m (List.mem_cons_of_mem n hm)
  · exact h.s_dist
  · exact traceOK_append g prev [(n, s)] s d h.s_trace

/-- Running the enqueue loop to completion preserves the invariant. -/
theorem enqueueAll_inv (g : Game) (s : State) (d : Nat) :
    ∀ (ns : List State) (q : List (State × Nat)) (prev : List (State × State)),
      EnqInv g s d ns q prev →
      EnqInv g s d [] (enqueueAll s d ns q prev).1 (enqueueAll s d ns q prev).2 := by
  intro ns
  induction ns with
  | nil =>
    intro q prev h
    exact h
  | cons n ns' ih =>
    intro q prev h
    rcases hl : lookupS prev n with _ | v
    · have hred : enqueueAll s d (n :: ns') q prev
          = enqueueAll s d ns' (q ++ [(n, d + 1)]) (prev ++ [(n, s)]) := by
        rw [enqueueAll, hl]
        simp
      rw [hred]
      exact ih _ _ (enqInv_extend g s d n ns' q prev h ((lookupS_eq_none_iff prev n).mp hl))
    · have hred : enqueueAll s d (n :: ns') q prev = enqueueAll s d ns' q prev := by
        rw [enqueueAll, hl]
        simp
      rw [hred]
      have hnk : n ∈ keys prev := by
        by_contra hc
        rw [← lookupS_eq_none_iff prev n] at hc
        rw [hl] at hc
        exact Option.noConfusion hc
      have h' : EnqInv g s d ns' q prev :=
        { keys_nodup := h.keys_nodup, keys_ne := h.keys_ne, q_sub := h.q_sub
          q_nodup := h.q_nodup, s_mem := h.s_mem, s_notq := h.s_notq, levels := h.levels
          dist_q := h.dist_q, closed_lt := h.closed_lt, closed_le := h.closed_le
          png := h.png, psucc := h.psucc
          ssucc := fun u hu => by
            rcases h.ssucc u hu with hk | hm
            · exact Or.inl hk
            · rcases List.mem_cons.mp hm with rfl | hm'
              · exact Or.inl hnk
              · exact Or.inr hm'
          trace_q := h.trace_q
          ns_step := fun m hm => h.ns_step m (List.mem_cons_of_mem n hm)
          s_dist := h.s_dist, s_trace := h.s_trace }
      exact ih q prev h'

/-- Invariant of the BFS loop of `Game::Solve` at level `d`: the frontier
holds the undiscovered boundary (moves `d` then `d+1`, each with its exact
BFS distance and a valid recorded trace), every state within distance `d`
is discovered, every fully processed ("popped") state is a non-goal whose
successors are all discovered. -/
structure BfsInv (g : Game) (d : Nat) (q : List (State × Nat))
    (prev : List (State × State)) : Prop where
  keys_nodup : (keys prev).Nodup
  keys_ne : ∀ k ∈ keys prev, k.pieces ≠ []
  q_sub : ∀ e ∈ q, e.1 ∈ keys prev
  q_nodup : (qStates q).Nodup
  levels : ∃ qa qb, q = qa ++ qb ∧ (∀ e ∈ qa, e.2 = d) ∧ (∀ e ∈ qb, e.2 = d + 1)
  dist_q : ∀ e ∈ q, DistEq g.start_state e.2 e.1
  closed_lt : ∀ t j, j < d → ReachIn g.start_state j t → t ∈ keys prev ∧ t ∉ qStates q
  closed_le : ∀ t, ReachLE g.start_state d t → t ∈ keys prev
  png : ∀ t, t ∈ keys prev → t ∉ qStates q → ¬IsGoal g t
  psucc : ∀ t, t ∈ keys prev → t ∉ qStates q → ∀ u, Step t u → u ∈ keys prev
  trace_q : ∀ e ∈ q, TraceOK g prev e.1 e.2

theorem bfsInv_levels_mem {g : Game} {d : Nat} {q : List (State × Nat)}
    {prev : List (State × State)} (h : BfsInv g d q prev) :
    ∀ e ∈ q, e.2 = d ∨ e.2 = d + 1 := by
  obtain ⟨qa, qb, hsplit, hqa, hqb⟩ := h.levels
  intro e he
  rw [hsplit] at he
  rcases List.mem_append.mp he with h1 | h1
  · exact Or.inl (hqa e h1)
  · exact Or.inr (hqb e h1)

theorem bfsInv_head_cases {g : Game} {d : Nat} {s : State} {m : Nat}
    {rest : List (State × Nat)} {prev : List (State × State)}
    (h : BfsInv g d ((s, m) :: rest) prev) :
    m = d ∨ (m = d + 1 ∧ ∀ e ∈ (s, m) :: rest, e.2 = d + 1) := by
  obtain ⟨qa, qb, hsplit, hqa, hqb⟩ := h.levels
  rcases qa with _ | ⟨e0, qa'⟩
  · rw [List.nil_append] at hsplit
    right
    constructor
    · exact hqb (s, m) (hsplit ▸ List.mem_cons_self (s, m) rest)
    · intro e he
      exact hqb e (hsplit ▸ he)
  · left
    rw [List.cons_append] at hsplit
    have h1 : (s, m) = e0 := (List.cons.inj hsplit).1
    have := hqa e0 (List.mem_cons_self e0 qa')
    rw [← h1] at this
    exact this

theorem bfsInv_head_min {g : Game} {d : Nat} {s : State} {m : Nat}
    {rest : List (State × Nat)} {prev : List (State × State)}
    (h : BfsInv g d ((s, m) :: rest) prev) :
    ∀ e ∈ (s, m) :: rest, m ≤ e.2 := by
  intro e he
  have hem := bfsInv_levels_mem h e he
  rcases bfsInv_head_cases h with hm | ⟨hm, hall⟩
  · omega
  · have := hall e he
    omega

/-- When only `d+1`-entries remain on the frontier, the invariant advances
to level `d+1`. -/
theorem bfsInv_relevel (g : Game) (d : Nat) (q : List (State × Nat))
    (prev : List (State × State)) (h : BfsInv g d q prev)
    (hall : ∀ e ∈ q, e.2 = d + 1) : BfsInv g (d + 1) q prev := by
  refine
    { keys_nodup := h.keys_nodup, keys_ne := h.keys_ne, q_sub := h.q_sub
      q_nodup := h.q_nodup, levels := ⟨q, [], by simp, hall, by simp⟩
      dist_q := h.dist_q, closed_lt := ?_, closed_le := ?_, png := h.png
      psucc := h.psucc, trace_q := h.trace_q }
  · intro t j hj hr
    rcases Classical.em (j < d) with hc | hc
    · exact h.closed_lt t j hc hr
    · have hjd : j = d := by omega
      subst hjd
      have hle : ReachLE g.start_state j t := ⟨j, le_refl j, hr⟩
      refine ⟨h.closed_le t hle, ?_⟩
      intro hq
      obtain ⟨e, he, hez⟩ := List.mem_map.mp hq
      have hde := h.dist_q e he
      have := hde.2 j (hez ▸ hle)
      have := hall e he
      omega
  · rintro t ⟨j, hj, hr⟩
    rcases Classical.em (j ≤ d) with hc | hc
    · exact h.closed_le t ⟨j, hc, hr⟩
    · have hjd : j = d + 1 := by omega
      subst hjd
      obtain ⟨u, hu, hstep⟩ := hr
      have hule : ReachLE g.start_state d u := ⟨d, le_refl d, hu⟩
      have huk : u ∈ keys prev := h.closed_le u hule
      rcases Classical.em (u ∈ qStates q) with huq | huq
      · obtain ⟨e, he, hez⟩ := List.mem_map.mp huq
        have hde := h.dist_q e he
        have := hde.2 d (hez ▸ hule)
        have := hall e he
        omega
      · exact h.psucc u huk huq t hstep

/-- Popping a head at the current level turns the BFS invariant into the
enqueue-loop invariant. -/
theorem bfsInv_pop (g : Game) (s : State) (m : Nat) (rest : List (State × Nat))
    (prev : List (State × State)) (h : BfsInv g m ((s, m) :: rest) prev)
    (ns : List State) (hns : State.neighbors s = some ns) :
    EnqInv g s m ns rest prev := by
  have hsq : s ∈ qStates ((s, m) :: rest) := List.mem_map_of_mem Prod.fst (List.mem_cons_self _ _)
  have hrestlev : ∃ qa qb, rest = qa ++ qb ∧ (∀ e ∈ qa, e.2 = m) ∧ (∀ e ∈ qb, e.2 = m + 1) := by
    obtain ⟨qa, qb, hsplit, hqa, hqb⟩ := h.levels
    rcases qa with _ | ⟨e0, qa'⟩
    · rw [List.nil_append] at hsplit
      have := hqb (s, m) (hsplit ▸ List.mem_cons_self (s, m) rest)
      omega
    · rw [List.cons_append] at hsplit
      have h2 : rest = qa' ++ qb := (List.cons.inj hsplit).2
      exact ⟨qa', qb, h2, fun e he => hqa e (List.mem_cons_of_mem e0 he), hqb⟩
  have hqnodup := h.q_nodup
  have hqs : qStates ((s, m) :: rest) = s :: qStates rest := by simp [qStates]
  rw [hqs] at hqnodup
  refine
    { keys_nodup := h.keys_nodup, keys_ne := h.keys_ne
      q_sub := fun e he => h.q_sub e (List.mem_cons_of_mem _ he)
      q_nodup := (List.pairwise_cons.mp hqnodup).2
      s_mem := h.q_sub (s, m) (List.mem_cons_self _ _)
      s_notq := by
        intro hc
        exact (List.nodup_cons.mp hqnodup).1 hc
      levels := hrestlev
      dist_q := fun e he => h.dist_q e (List.mem_cons_of_mem _ he)
      closed_lt := ?_, closed_le := h.closed_le
      png := ?_, psucc := ?_, ssucc := ?_
      trace_q := fun e he => h.trace_q e (List.mem_cons_of_mem _ he)
      ns_step := fun n hn => (step_iff_mem s ns hns n).mpr hn
      s_dist := h.dist_q (s, m) (List.mem_cons_self _ _)
      s_trace := h.trace_q (s, m) (List.mem_cons_self _ _) }
  · intro t j hj hr
    obtain ⟨hk, hnq⟩ := h.closed_lt t j hj hr
    rw [hqs] at hnq
    refine ⟨hk, ?_, ?_⟩
    · intro hc
      exact hnq (List.mem_cons_of_mem s hc)
    · intro hc
      exact hnq (hc ▸ List.mem_cons_self s (qStates rest))
  · intro t hk htq hts
    refine h.png t hk ?_
    rw [hqs]
    intro hc
    rcases List.mem_cons.mp hc with hc | hc
    · exact hts hc
    · exact htq hc
  · intro t hk htq hts u hu
    refine h.psucc t hk ?_ u hu
    rw [hqs]
    intro hc
    rcases List.mem_cons.mp hc with hc | hc
    · exact hts hc
    · exact htq hc
  · intro u hu
    exact Or.inr ((step_iff_mem s ns hns u).mp hu)

/-- After the enqueue loop finishes on a non-goal popped state, the BFS
invariant holds again at the same level. -/
theorem enqInv_to_bfsInv (g : Game) (s : State) (d : Nat) (q : List (State × Nat))
    (prev : List (State × State)) (h : EnqInv g s d [] q prev) (hsgoal : ¬IsGoal g s) :
    BfsInv g d q prev := by
  refine
    { keys_nodup := h.keys_nodup, keys_ne := h.keys_ne, q_sub := h.q_sub
      q_nodup := h.q_nodup, levels := h.levels, dist_q := h.dist_q
      closed_lt := fun t j hj hr => ⟨(h.closed_lt t j hj hr).1, (h.closed_lt t j hj hr).2.1⟩
      closed_le := h.closed_le, png := ?_, psucc := ?_, trace_q := h.trace_q }
  · intro t hk htq
    rcases Classical.em (t = s) with rfl | hts
    · exact hsgoal
    · exact h.png t hk htq hts
  · intro t hk htq u hu
    rcases Classical.em (t = s) with rfl | hts
    · rcases h.ssucc u hu with hm | hm
      · exact hm
      · simp at hm
    · exact h.psucc t hk htq hts u hu

/-- Master BFS lemma: under the level invariant, a nonempty result of the
BFS loop is a legal path from the start to a goal state of minimal length
among all legal goal paths. -/
theorem solveAux_master (g : Game) :
    ∀ (fuel : Nat) (q : List (State × Nat)) (prev : List (State × State)) (d : Nat),
      BfsInv g d q prev →
      ∀ p, solveAux g fuel q prev = some p → p ≠ [] →
        p.head? = some g.start_state ∧ IsPath p ∧
        (∃ z, p.getLast? = some z ∧ IsGoal g z) ∧
        (∀ qq, IsPath qq → qq.head? = some g.start_state →
          (∃ z, qq.getLast? = some z ∧ IsGoal g z) → p.length ≤ qq.length) := by
  intro fuel
  induction fuel with
  | zero =>
    intro q prev d hinv p hp hpne
    exact absurd hp (by simp [solveAux])
  | succ f ih =>
    intro q prev d hinv p hp hpne
    rcases q with _ | ⟨⟨s, m⟩, rest⟩
    · simp only [solveAux] at hp
      exact absurd (Option.some.inj hp).symm hpne
    · simp only [solveAux] at hp
      rcases hsp : s.pieces with _ | ⟨fp, tl⟩
      · rw [hsp] at hp
        dsimp only at hp
        exact absurd hp (by simp)
      · rw [hsp] at hp
        dsimp only at hp
        rcases Classical.em (fp.x = g.dest_x ∧ fp.y = g.dest_y) with hgoal | hgoal
        · rw [if_pos hgoal] at hp
          obtain ⟨pth, hpth, hhead, hlast, hpath, hlen⟩ :=
            hinv.trace_q (s, m) (List.mem_cons_self _ _)
          rw [hpth] at hp
          have hpe : pth = p := Option.some.inj hp
          subst hpe
          have hgs : IsGoal g s := ⟨fp, tl, hsp, hgoal.1, hgoal.2⟩
          refine ⟨hhead, hpath, ⟨s, hlast, hgs⟩, ?_⟩
          rintro qq hqqpath hqqhead ⟨z, hqqlast, hqzgoal⟩
          have hreach : ReachIn g.start_state (qq.length - 1) z :=
            path_reach qq _ z hqqpath hqqhead hqqlast
          have hrle : ReachLE g.start_state (qq.length - 1) z := ⟨_, le_refl _, hreach⟩
          have hqqne : qq ≠ [] := by
            intro he
            rw [he] at hqqhead
            simp at hqqhead
          have hqlen : 1 ≤ qq.length := List.length_pos.mpr hqqne
          have hm_le : m ≤ qq.length - 1 := by
            rcases Classical.em (z ∈ keys prev) with hzk | hzk
            · rcases Classical.em (z ∈ qStates ((s, m) :: rest)) with hzq | hzq
              · obtain ⟨e, he, hez⟩ := List.mem_map.mp hzq
                have hde := hinv.dist_q e he
                have h1 : e.2 ≤ qq.length - 1 := hde.2 _ (hez.symm ▸ hrle)
                have h2 : m ≤ e.2 := bfsInv_head_min hinv e he
                omega
              · exact absurd hqzgoal (hinv.png z hzk hzq)
            · have hnle : ¬ReachLE g.start_state d z := fun hc => hzk (hinv.closed_le z hc)
              have hgt : d < qq.length - 1 := by
                by_contra hle
                exact hnle (reachLE_mono _ _ _ (by omega) z hrle)
              have hmd := bfsInv_levels_mem hinv (s, m) (List.mem_cons_self _ _)
              dsimp only at hmd
              omega
          omega
        · rw [if_neg hgoal] at hp
          rcases hns : State.neighbors s with _ | ns
          · rw [hns] at hp
            dsimp only at hp
            exact absurd hp (by simp)
          · rw [hns] at hp
            dsimp only at hp
            have hinv2 : BfsInv g m ((s, m) :: rest) prev := by
              rcases bfsInv_head_cases hinv with hm | ⟨hm, hall⟩
              · subst hm
                exact hinv
              · have h2 := bfsInv_relevel g d _ prev hinv hall
                rw [hm]
                rw [hm] at h2
                exact h2
            have hnotgoal : ¬IsGoal g s := by
              rintro ⟨fp', tl', hsp', hx, hy⟩
              rw [hsp] at hsp'
              have := (List.cons.inj hsp').1
              subst this
              exact hgoal ⟨hx, hy⟩
            have henq := enqueueAll_inv g s m ns rest prev (bfsInv_pop g s m rest prev hinv2 ns hns)
            have hnewinv := enqInv_to_bfsInv g s m _ _ henq hnotgoal
            exact ih _ _ m hnewinv p hp hpne

theorem traceAux_succ (f : Nat) (prev : List (State × State)) (s : State) (acc : List State) :
    traceAux (f + 1) prev s acc =
      if s.pieces = [] then some acc.reverse
      else
        match lookupS prev s with
        | none => none
        | some v => traceAux f prev v (acc ++ [s]) := rfl

/-- Tracing the start state through the initial backpointer map (start
mapped to the empty sentinel) yields the singleton path. -/
theorem tracePathTo_init (st e : State) (hne : st.pieces ≠ []) (hemp : e.pieces = []) :
    tracePathTo [(st, e)] st = some [st] := by
  show traceAux (1 + 1) [(st, e)] st [] = some [st]
  rw [traceAux_succ, if_neg hne]
  have hl : lookupS [(st, e)] st = some e := by
    unfold lookupS
    rw [if_pos rfl]
  rw [hl]
  dsimp only
  show traceAux (0 + 1) [(st, e)] e ([] ++ [st]) = some [st]
  rw [traceAux_succ, if_pos hemp]
  simp

/-- The BFS invariant holds for the initial frontier and backpointer map
of `Game::Solve`. -/
theorem bfsInv_init (g : Game) (hne : g.start_state.pieces ≠ []) :
    BfsInv g 0 [(g.start_state, 0)] [(g.start_state, ⟨[]⟩)] := by
  have hkeys : keys [(g.start_state, (⟨[]⟩ : State))] = [g.start_state] := rfl
  refine
    { keys_nodup := ?_, keys_ne := ?_, q_sub := ?_, q_nodup := ?_, levels := ?_
      dist_q := ?_, closed_lt := ?_, closed_le := ?_, png := ?_, psucc := ?_, trace_q := ?_ }
  · rw [hkeys]
    exact List.nodup_singleton _
  · rw [hkeys]
    intro k hk
    rw [List.mem_singleton] at hk
    subst hk
    exact hne
  · intro e he
    rw [List.mem_singleton] at he
    subst he
    rw [hkeys]
    simp
  · exact List.nodup_singleton _
  · refine ⟨[(g.start_state, 0)], [], by simp, ?_, by simp⟩
    intro e he
    rw [List.mem_singleton] at he
    subst he
    rfl
  · intro e he
    rw [List.mem_singleton] at he
    subst he
    exact ⟨⟨0, le_refl 0, rfl⟩, fun j _ => Nat.zero_le j⟩
  · intro t j hj _
    exact absurd hj (Nat.not_lt_zero j)
  · rintro t ⟨j, hj, hr⟩
    have hj0 : j = 0 := by omega
    subst hj0
    have ht : t = g.start_state := hr
    subst ht
    rw [hkeys]
    simp
  · intro t hk htq
    exfalso
    rw [hkeys] at hk
    rw [List.mem_singleton] at hk
    subst hk
    exact htq (List.mem_singleton.mpr rfl)
  · intro t hk htq
    exfalso
    rw [hkeys] at hk
    rw [List.mem_singleton] at hk
    subst hk
    exact htq (List.mem_singleton.mpr rfl)
  · intro e he
    rw [List.mem_singleton] at he
    subst he
    exact ⟨[g.start_state], tracePathTo_init g.start_state ⟨[]⟩ hne rfl,
      by simp, by simp, trivial, rfl⟩

/-- A nonempty result of `Game::Solve` is a legal path from the start to a
goal state of minimal length among all legal goal paths. -/
theorem solve_bfs_master (g : Game) (p : List State) (hp : solve g = some p) (hpne : p ≠ []) :
    p.head? = some g.start_state ∧ IsPath p ∧
      (∃ z, p.getLast? = some z ∧ IsGoal g z) ∧
      (∀ qq, IsPath qq → qq.head? = some g.start_state →
        (∃ z, qq.getLast? = some z ∧ IsGoal g z) → p.length ≤ qq.length) := by
  rcases hsp : g.start_state.pieces with _ | ⟨fp, tl⟩
  · exfalso
    unfold solve at hp
    obtain ⟨B, hB⟩ : ∃ B, fuelBound g = B + 1 := ⟨_, rfl⟩
    rw [hB] at hp
    simp only [solveAux] at hp
    rw [hsp] at hp
    dsimp only at hp
    simp at hp
  · have hne : g.start_state.pieces ≠ [] := by
      rw [hsp]
      simp
    exact solveAux_master g (fuelBound g) _ _ 0 (bfsInv_init g hne) p hp hpne

/-! ### C2: minimality of the returned path -/

/-- Modelled from the spec: `Neighbors` as §4.2 describes it, using the
full outward-scan movement range of §4.1 (`specMovementRange`) instead of
the code's clamped one — a "slide" may traverse several empty cells. -/
def specNeighbors (s : State) : Option (List State) :=
  match s.draw with
  | none => none
  | some b =>
    some
      (s.pieces.enum.flatMap fun ip =>
        let r := specMovementRange ip.2 b
        ((intRange r.1 r.2).filter fun d => d ≠ 0).map fun d =>
          State.canonicalize ⟨s.pieces.set ip.1 (Piece.move ip.2 d)⟩)

/-- Modelled from the spec: one single-piece, nonzero, collision-free
slide in the spec's sense. -/
def SpecStep (s t : State) : Prop :=
  t ∈ (specNeighbors s).getD []

instance (s t : State) : Decidable (SpecStep s t) :=
  inferInstanceAs (Decidable (t ∈ (specNeighbors s).getD []))

/-- A list of states every consecutive pair of which is one spec slide. -/
def IsSpecPath : List State → Prop
  | [] => True
  | [_] => True
  | a :: b :: r => SpecStep a b ∧ IsSpecPath (b :: r)

def isSpecPathDec : (l : List State) → Decidable (IsSpecPath l)
  | [] => isTrue trivial
  | [_] => isTrue trivial
  | a :: b :: r =>
    haveI := isSpecPathDec (b :: r)
    inferInstanceAs (Decidable (SpecStep a b ∧ IsSpecPath (b :: r)))

instance (l : List State) : Decidable (IsSpecPath l) := isSpecPathDec l

/-- C2 counterexample: for a lone goal piece at (0,0) with target (3,0),
`Solve` returns a four-state path (3 moves), but a single spec slide (one
collision-free multi-cell move of one piece) already reaches the goal: the
two-state sequence is strictly shorter, so the returned path is not
minimal over sequences of spec slides. -/
theorem solve_not_minimal_over_spec_slides_cex :
    solve ⟨⟨[⟨0, 0, 2, .kHoriz⟩]⟩, 3, 0⟩ =
      some [⟨[⟨0, 0, 2, .kHoriz⟩]⟩, ⟨[⟨1, 0, 2, .kHoriz⟩]⟩, ⟨[⟨2, 0, 2, .kHoriz⟩]⟩,
        ⟨[⟨3, 0, 2, .kHoriz⟩]⟩] ∧
    IsSpecPath [⟨[⟨0, 0, 2, .kHoriz⟩]⟩, ⟨[⟨3, 0, 2, .kHoriz⟩]⟩] ∧
    ([⟨[⟨0, 0, 2, .kHoriz⟩]⟩, ⟨[⟨3, 0, 2, .kHoriz⟩]⟩] : List State).head? =
      some (⟨⟨[⟨0, 0, 2, .kHoriz⟩]⟩, 3, 0⟩ : Game).start_state ∧
    IsGoal ⟨⟨[⟨0, 0, 2, .kHoriz⟩]⟩, 3, 0⟩ ⟨[⟨3, 0, 2, .kHoriz⟩]⟩ ∧
    ([⟨[⟨0, 0, 2, .kHoriz⟩]⟩, ⟨[⟨3, 0, 2, .kHoriz⟩]⟩] : List State).length <
      ([⟨[⟨0, 0, 2, .kHoriz⟩]⟩, ⟨[⟨1, 0, 2, .kHoriz⟩]⟩, ⟨[⟨2, 0, 2, .kHoriz⟩]⟩,
        ⟨[⟨3, 0, 2, .kHoriz⟩]⟩] : List State).length := by
  refine ⟨by decide, by decide, rfl, ⟨⟨3, 0, 2, .kHoriz⟩, [], rfl, rfl, rfl⟩, by decide⟩

/-- C2 (amended): whenever `Solve` succeeds, the returned path is minimal
counted in the program's moves: no shorter sequence of single-piece,
nonzero, collision-free one-cell slides (the moves `Neighbors` generates)
transforms the start state into a state whose goal piece occupies the
target cell. -/
theorem solve_minimal_unit_moves (g : Game) (p : List State)
    (hp : solve g = some p) (hpne : p ≠ []) :
    ∀ qq, IsPath qq → qq.head? = some g.start_state →
      (∃ z, qq.getLast? = some z ∧ IsGoal g z) → p.length ≤ qq.length :=
  (solve_bfs_master g p hp hpne).2.2.2

/-- Witness for `solve_minimal_unit_moves` at a concrete puzzle. -/
theorem solve_minimal_unit_moves_witness :
    solve ⟨⟨[⟨0, 0, 2, .kHoriz⟩]⟩, 3, 0⟩ =
      some [⟨[⟨0, 0, 2, .kHoriz⟩]⟩, ⟨[⟨1, 0, 2, .kHoriz⟩]⟩, ⟨[⟨2, 0, 2, .kHoriz⟩]⟩,
        ⟨[⟨3, 0, 2, .kHoriz⟩]⟩] ∧
    (∀ qq, IsPath qq →
      qq.head? = some (⟨⟨[⟨0, 0, 2, .kHoriz⟩]⟩, 3, 0⟩ : Game).start_state →
      (∃ z, qq.getLast? = some z ∧ IsGoal ⟨⟨[⟨0, 0, 2, .kHoriz⟩]⟩, 3, 0⟩ z) →
      ([⟨[⟨0, 0, 2, .kHoriz⟩]⟩, ⟨[⟨1, 0, 2, .kHoriz⟩]⟩, ⟨[⟨2, 0, 2, .kHoriz⟩]⟩,
        ⟨[⟨3, 0, 2, .kHoriz⟩]⟩] : List State).length ≤ qq.length) :=
  ⟨by decide, solve_minimal_unit_moves _ _ (by decide) (by decide)⟩

/-! ### C8: the returned sequence is the full start-to-goal path -/

/-- C8: whenever `Solve` succeeds (nonempty result), the returned sequence
starts at the start state, ends at a state whose goal piece occupies the
target, and every consecutive pair differs by one legal move; its length
is therefore the number of moves plus one. -/
theorem solve_path_valid (g : Game) (p : List State)
    (hp : solve g = some p) (hpne : p ≠ []) :
    p.head? = some g.start_state ∧ IsPath p ∧
      (∃ z, p.getLast? = some z ∧ IsGoal g z) := by
  obtain ⟨h1, h2, h3, _⟩ := solve_bfs_master g p hp hpne
  exact ⟨h1, h2, h3⟩

/-- Witness for `solve_path_valid` at a concrete puzzle. -/
theorem solve_path_valid_witness :
    solve ⟨⟨[⟨0, 0, 2, .kHoriz⟩]⟩, 2, 0⟩ =
      some [⟨[⟨0, 0, 2, .kHoriz⟩]⟩, ⟨[⟨1, 0, 2, .kHoriz⟩]⟩, ⟨[⟨2, 0, 2, .kHoriz⟩]⟩] ∧
    (([⟨[⟨0, 0, 2, .kHoriz⟩]⟩, ⟨[⟨1, 0, 2, .kHoriz⟩]⟩,
        ⟨[⟨2, 0, 2, .kHoriz⟩]⟩] : List State).head? =
        some (⟨⟨[⟨0, 0, 2, .kHoriz⟩]⟩, 2, 0⟩ : Game).start_state ∧
      IsPath [⟨[⟨0, 0, 2, .kHoriz⟩]⟩, ⟨[⟨1, 0, 2, .kHoriz⟩]⟩, ⟨[⟨2, 0, 2, .kHoriz⟩]⟩] ∧
      (∃ z, ([⟨[⟨0, 0, 2, .kHoriz⟩]⟩, ⟨[⟨1, 0, 2, .kHoriz⟩]⟩,
        ⟨[⟨2, 0, 2, .kHoriz⟩]⟩] : List State).getLast? = some z ∧
        IsGoal ⟨⟨[⟨0, 0, 2, .kHoriz⟩]⟩, 2, 0⟩ z)) :=
  ⟨by decide, solve_path_valid _ _ (by decide) (by decide)⟩

/-! ### C6: an already-solved start returns the singleton path -/

/-- C6: if the start state's goal piece already occupies the target
coordinate, `Solve` returns exactly the one-element sequence holding the
start state (0 moves). -/
theorem solve_already_solved (g : Game) (fp : Piece) (tl : List Piece)
    (hsp : g.start_state.pieces = fp :: tl) (hx : fp.x = g.dest_x) (hy : fp.y = g.dest_y) :
    solve g = some [g.start_state] := by
  unfold solve
  obtain ⟨B, hB⟩ : ∃ B, fuelBound g = B + 1 := ⟨_, rfl⟩
  rw [hB]
  simp only [solveAux]
  rw [hsp]
  dsimp only
  rw [if_pos ⟨hx, hy⟩]
  exact tracePathTo_init g.start_state ⟨[]⟩ (by rw [hsp]; simp) rfl

/-- Witness for `solve_already_solved` at a concrete puzzle. -/
theorem solve_already_solved_witness :
    solve ⟨⟨[⟨0, 2, 2, .kHoriz⟩, ⟨3, 0, 2, .kVert⟩]⟩, 0, 2⟩ =
      some [⟨[⟨0, 2, 2, .kHoriz⟩, ⟨3, 0, 2, .kVert⟩]⟩] :=
  solve_already_solved _ ⟨0, 2, 2, .kHoriz⟩ [⟨3, 0, 2, .kVert⟩] rfl rfl rfl

/-! ### C7: frontier exhaustion on unsolvable puzzles -/

def isGoalDec (g : Game) (s : State) : Decidable (IsGoal g s) :=
  match h : s.pieces with
  | [] =>
    isFalse (by
      rintro ⟨fp, tl, hsp, _, _⟩
      rw [h] at hsp
      exact List.noConfusion hsp)
  | fp :: tl =>
    if hc : fp.x = g.dest_x ∧ fp.y = g.dest_y then
      isTrue ⟨fp, tl, h, hc.1, hc.2⟩
    else
      isFalse (by
        rintro ⟨fp', tl', hsp, hx, hy⟩
        rw [h] at hsp
        have hfp := (List.cons.inj hsp).1
        subst hfp
        exact hc ⟨hx, hy⟩)

instance (g : Game) (s : State) : Decidable (IsGoal g s) := isGoalDec g s

theorem inBoundsP_coord (p : Piece) (hin : InBoundsP p) (hsz : 1 ≤ p.size) :
    0 ≤ p.x ∧ p.x < 6 ∧ 0 ≤ p.y ∧ p.y < 6 := by
  obtain ⟨px, py, ps, po⟩ := p
  simp only at hsz
  cases po <;> unfold InBoundsP extents kBoardSize at hin <;> dsimp only at hin <;>
    dsimp only <;> omega

/-- One legal move preserves both non-overlap and in-bounds. -/
theorem step_preserves_good (s n : State) (hdisj : Disj s) (hin : InBounds s) (hstep : Step s n) :
    Disj n ∧ InBounds n := by
  obtain ⟨b, hb, i, p, δ, hip, hδ0, h1, h2, hn⟩ := step_decompose s n hstep
  obtain ⟨b', hb', hchar⟩ := draw_eq_some_of_disj s hdisj
  have hbb : b = b' := by
    rw [hb] at hb'
    exact Option.some.inj hb'
  rw [← hbb] at hchar
  have hdj := set_moved_disj s hdisj b hchar i p hip δ hδ0 h1 h2
  constructor
  · rw [hn]
    exact canonicalize_disj _ hdj
  · rw [hn]
    intro q hq
    have hq' : q ∈ s.pieces.set i (Piece.move p δ) := (canonicalize_perm _).mem_iff.mp hq
    rcases List.mem_or_eq_of_mem_set hq' with hmem | hqe
    · exact hin q hmem
    · subst hqe
      obtain ⟨hilen, hieq⟩ := List.getElem?_eq_some_iff.mp hip
      have hp : p ∈ s.pieces := by
        rw [← hieq]
        exact s.pieces.getElem_mem hilen
      exact inBoundsP_move p b (hin p hp) δ hδ0 h1 h2

/-- One legal move preserves the `(size, orient)` inventory drawn from the
start state. -/
theorem step_preserves_sz (g : Game) (s n : State)
    (hsz : ∀ p ∈ s.pieces, (p.size, p.orient) ∈ szList g) (hstep : Step s n) :
    ∀ p ∈ n.pieces, (p.size, p.orient) ∈ szList g := by
  obtain ⟨b, hb, i, p, δ, hip, hδ0, h1, h2, hn⟩ := step_decompose s n hstep
  intro q hq
  rw [hn] at hq
  have hq' := (canonicalize_perm _).mem_iff.mp hq
  rcases List.mem_or_eq_of_mem_set hq' with hmem | hqe
  · exact hsz q hmem
  · subst hqe
    obtain ⟨hilen, hieq⟩ := List.getElem?_eq_some_iff.mp hip
    have hp : p ∈ s.pieces := by
      rw [← hieq]
      exact s.pieces.getElem_mem hilen
    have hfield : (Piece.move p δ).size = p.size ∧ (Piece.move p δ).orient = p.orient := by
      obtain ⟨px, py, ps, po⟩ := p
      cases po <;> exact ⟨rfl, rfl⟩
    rw [hfield.1, hfield.2]
    exact hsz p hp

/-- Distinct states with the start state's piece count, positive sizes
from the start's inventory, and in-bounds pieces are at most
`|pieceSpace|^n` many. -/
theorem keys_card_bound (g : Game) (hszpos : ∀ z ∈ szList g, 1 ≤ z.1) (l : List State)
    (hnd : l.Nodup)
    (hlen : ∀ k ∈ l, k.pieces.length = g.start_state.pieces.length)
    (hsz : ∀ k ∈ l, ∀ p ∈ k.pieces, (p.size, p.orient) ∈ szList g)
    (hin : ∀ k ∈ l, InBounds k) :
    l.length ≤ (pieceSpace g).card ^ g.start_state.pieces.length := by
  classical
  have hmem : ∀ k ∈ l, ∀ p ∈ k.pieces, p ∈ pieceSpace g := by
    intro k hk p hp
    have h1 := hsz k hk p hp
    have h2 := hin k hk p hp
    have hps : (1 : Int) ≤ p.size := hszpos (p.size, p.orient) h1
    have hco := inBoundsP_coord p h2 hps
    unfold pieceSpace
    rw [Finset.mem_image]
    refine ⟨((p.x.toNat, p.y.toNat), (p.size, p.orient)), ?_, ?_⟩
    · rw [Finset.mem_product]
      constructor
      · rw [Finset.mem_product]
        refine ⟨?_, ?_⟩ <;> rw [Finset.mem_range] <;> dsimp only <;> omega
      · rw [List.mem_toFinset]
        exact h1
    · obtain ⟨px, py, ps, po⟩ := p
      dsimp only at hco ⊢
      have hxc : ((px.toNat : Nat) : Int) = px := by omega
      have hyc : ((py.toNat : Nat) : Int) = py := by omega
      rw [hxc, hyc]
  have henc : ∀ (ks : {k // k ∈ l}) (i : Fin g.start_state.pieces.length),
      i.1 < ks.1.pieces.length := by
    intro ks i
    rw [hlen ks.1 ks.2]
    exact i.2
  have hmap :
      (l.attach.map (fun ks : {k // k ∈ l} =>
        (fun i : Fin g.start_state.pieces.length =>
          (⟨ks.1.pieces.get ⟨i.1, henc ks i⟩,
            hmem ks.1 ks.2 _ (List.get_mem _ _ _)⟩ : {p // p ∈ pieceSpace g})))).Nodup := by
    refine List.Nodup.map_on ?_ hnd.attach
    intro a _ b _ he
    have hlena := hlen a.1 a.2
    have hlenb := hlen b.1 b.2
    have hpieces : a.1.pieces = b.1.pieces := by
      apply List.ext_getElem (by rw [hlena, hlenb])
      intro i hi1 hi2
      have hfi : i < g.start_state.pieces.length := by rw [← hlena]; exact hi1
      have := congrFun he ⟨i, hfi⟩
      have hval := congrArg Subtype.val this
      simpa using hval
    apply Subtype.ext
    obtain ⟨⟨pa⟩, ha⟩ := a
    obtain ⟨⟨pb⟩, hb⟩ := b
    simpa using hpieces
  have hle := List.Nodup.length_le_card hmap
  rw [List.length_map, List.length_attach] at hle
  have hcard : Fintype.card (Fin g.start_state.pieces.length → {p // p ∈ pieceSpace g}) =
      (pieceSpace g).card ^ g.start_state.pieces.length := by
    rw [Fintype.card_fun]
    rw [Fintype.card_coe, Fintype.card_fin]
  rw [hcard] at hle
  exact hle

/-- Invariant of the BFS loop used for termination and exhaustion: all
discovered states are distinct, reachable, well-formed descendants of the
start state. -/
structure TermInv (g : Game) (q : List (State × Nat)) (prev : List (State × State)) : Prop where
  keys_nodup : (keys prev).Nodup
  keys_len : ∀ k ∈ keys prev, k.pieces.length = g.start_state.pieces.length
  keys_sz : ∀ k ∈ keys prev, ∀ p ∈ k.pieces, (p.size, p.orient) ∈ szList g
  keys_good : ∀ k ∈ keys prev, Disj k ∧ InBounds k
  keys_reach : ∀ k ∈ keys prev, Reachable g.start_state k
  q_sub : ∀ e ∈ q, e.1 ∈ keys prev

/-- The enqueue loop preserves `TermInv`, and each insertion grows the
frontier and the backpointer map together. -/
theorem enqueueAll_term (g : Game) (s : State) (m : Nat) :
    ∀ (ns : List State) (q : List (State × Nat)) (prev : List (State × State)),
      TermInv g q prev → s ∈ keys prev → (∀ nn ∈ ns, Step s nn) →
      TermInv g (enqueueAll s m ns q prev).1 (enqueueAll s m ns q prev).2 ∧
        (enqueueAll s m ns q prev).1.length + prev.length =
          q.length + (enqueueAll s m ns q prev).2.length := by
  intro ns
  induction ns with
  | nil =>
    intro q prev ht _ _
    exact ⟨ht, rfl⟩
  | cons n ns' ih =>
    intro q prev ht hs hstep
    rcases hl : lookupS prev n with _ | v
    · have hred : enqueueAll s m (n :: ns') q prev
          = enqueueAll s m ns' (q ++ [(n, m + 1)]) (prev ++ [(n, s)]) := by
        rw [enqueueAll, hl]
        simp
      rw [hred]
      have hfresh : n ∉ keys prev := (lookupS_eq_none_iff prev n).mp hl
      have hstepn : Step s n := hstep n (List.mem_cons_self _ _)
      have hsgood := ht.keys_good s hs
      have hngood := step_preserves_good s n hsgood.1 hsgood.2 hstepn
      have ht' : TermInv g (q ++ [(n, m + 1)]) (prev ++ [(n, s)]) := by
        refine
          { keys_nodup := ?_, keys_len := ?_, keys_sz := ?_, keys_good := ?_
            keys_reach := ?_, q_sub := ?_ }
        · rw [keys_append, List.nodup_append]
          refine ⟨ht.keys_nodup, List.nodup_singleton n, ?_⟩
          intro a ha hb
          rw [List.mem_singleton] at hb
          subst hb
          exact hfresh ha
        · rw [keys_append]
          intro k hk
          rcases List.mem_append.mp hk with hk | hk
          · exact ht.keys_len k hk
          · rw [List.mem_singleton] at hk
            subst hk
            rw [step_length s k hstepn]
            exact ht.keys_len s hs
        · rw [keys_append]
          intro k hk
          rcases List.mem_append.mp hk with hk | hk
          · exact ht.keys_sz k hk
          · rw [List.mem_singleton] at hk
            subst hk
            exact step_preserves_sz g s k (ht.keys_sz s hs) hstepn
        · rw [keys_append]
          intro k hk
          rcases List.mem_append.mp hk with hk | hk
          · exact ht.keys_good k hk
          · rw [List.mem_singleton] at hk
            subst hk
            exact hngood
        · rw [keys_append]
          intro k hk
          rcases List.mem_append.mp hk with hk | hk
          · exact ht.keys_reach k hk
          · rw [List.mem_singleton] at hk
            subst hk
            obtain ⟨j, hj⟩ := ht.keys_reach s hs
            exact ⟨j + 1, ⟨s, hj, hstepn⟩⟩
        · intro e he
          rw [keys_append]
          rcases List.mem_append.mp he with he | he
          · exact List.mem_append_left _ (ht.q_sub e he)
          · rw [List.mem_singleton] at he
            subst he
            exact List.mem_append_right _ (by simp)
      obtain ⟨hterm, hlenq⟩ := ih _ _ ht'
        (by rw [keys_append]; exact List.mem_append_left _ hs)
        (fun nn hnn => hstep nn (List.mem_cons_of_mem n hnn))
      refine ⟨hterm, ?_⟩
      simp only [List.length_append, List.length_singleton] at hlenq
      omega
    · have hred : enqueueAll s m (n :: ns') q prev = enqueueAll s m ns' q prev := by
        rw [enqueueAll, hl]
        simp
      rw [hred]
      exact ih _ _ ht hs (fun nn hnn => hstep nn (List.mem_cons_of_mem n hnn))

/-- With sufficient fuel and no reachable goal state, the BFS loop runs
the frontier down to empty and returns the empty path. -/
theorem solveAux_exhausts (g : Game) (hne : g.start_state.pieces ≠ [])
    (hszpos : ∀ z ∈ szList g, 1 ≤ z.1)
    (hnogoal : ∀ t, Reachable g.start_state t → ¬IsGoal g t) :
    ∀ (fuel : Nat) (q : List (State × Nat)) (prev : List (State × State)),
      TermInv g q prev →
      (pieceSpace g).card ^ g.start_state.pieces.length + q.length + 1 ≤ fuel + prev.length →
      solveAux g fuel q prev = some [] := by
  intro fuel
  induction fuel with
  | zero =>
    intro q prev ht hfuel
    exfalso
    have hbound : prev.length ≤ (pieceSpace g).card ^ g.start_state.pieces.length := by
      have hb := keys_card_bound g hszpos (keys prev) ht.keys_nodup ht.keys_len ht.keys_sz
        (fun k hk => (ht.keys_good k hk).2)
      unfold keys at hb
      rw [List.length_map] at hb
      exact hb
    omega
  | succ f ih =>
    intro q prev ht hfuel
    rcases q with _ | ⟨⟨s, m⟩, rest⟩
    · simp [solveAux]
    · have hs : s ∈ keys prev := ht.q_sub (s, m) (List.mem_cons_self _ _)
      have hsreach := ht.keys_reach s hs
      have hsgood := ht.keys_good s hs
      have hsne : s.pieces ≠ [] := by
        have hl := ht.keys_len s hs
        intro hc
        rw [hc] at hl
        exact hne (List.length_eq_zero.mp hl.symm)
      rcases hsp : s.pieces with _ | ⟨fp, tl⟩
      · exact absurd hsp hsne
      · have hngoal : ¬(fp.x = g.dest_x ∧ fp.y = g.dest_y) := by
          intro hc
          exact hnogoal s hsreach ⟨fp, tl, hsp, hc.1, hc.2⟩
        obtain ⟨b, hb, _⟩ := draw_eq_some_of_disj s hsgood.1
        obtain ⟨ns, hns⟩ : ∃ ns, State.neighbors s = some ns := by
          unfold State.neighbors
          rw [hb]
          exact ⟨_, rfl⟩
        have hstepall : ∀ nn ∈ ns, Step s nn := fun nn hnn => (step_iff_mem s ns hns nn).mpr hnn
        have htrest : TermInv g rest prev :=
          { keys_nodup := ht.keys_nodup, keys_len := ht.keys_len, keys_sz := ht.keys_sz
            keys_good := ht.keys_good, keys_reach := ht.keys_reach
            q_sub := fun e he => ht.q_sub e (List.mem_cons_of_mem _ he) }
        obtain ⟨hterm, hlenq⟩ := enqueueAll_term g s m ns rest prev htrest hs hstepall
        simp only [solveAux]
        rw [hsp]
        dsimp only
        rw [if_neg hngoal, hns]
        dsimp only
        apply ih _ _ hterm
        simp only [List.length_cons] at hfuel
        omega

theorem reachable_of_no_neighbors (a : State) (hn : State.neighbors a = some []) :
    ∀ t, Reachable a t → t = a := by
  rintro t ⟨j, hr⟩
  induction j generalizing t with
  | zero => exact hr
  | succ k ihj =>
    obtain ⟨u, hu, hstep⟩ := hr
    have hua : u = a := ihj u hu
    subst hua
    unfold Step at hstep
    rw [hn] at hstep
    simp at hstep

/-- C7: for a well-formed start state from which no reachable state places
the goal piece on the target, `Solve` exhausts the frontier and returns the
empty sequence (distinct from the one-element already-solved result). -/
theorem solve_unreachable_empty (g : Game)
    (hne : g.start_state.pieces ≠ []) (hdisj : Disj g.start_state)
    (hin : InBounds g.start_state)
    (hszpos : ∀ z ∈ szList g, 1 ≤ z.1)
    (hnogoal : ∀ t, Reachable g.start_state t → ¬IsGoal g t) :
    solve g = some [] := by
  unfold solve
  have hkeys : keys [(g.start_state, (⟨[]⟩ : State))] = [g.start_state] := rfl
  refine solveAux_exhausts g hne hszpos hnogoal (fuelBound g) _ _ ?_ ?_
  · refine
      { keys_nodup := ?_, keys_len := ?_, keys_sz := ?_, keys_good := ?_
        keys_reach := ?_, q_sub := ?_ }
    · rw [hkeys]
      exact List.nodup_singleton _
    · rw [hkeys]
      intro k hk
      rw [List.mem_singleton] at hk
      subst hk
      rfl
    · rw [hkeys]
      intro k hk
      rw [List.mem_singleton] at hk
      subst hk
      intro p hp
      unfold szList
      exact List.mem_map_of_mem _ hp
    · rw [hkeys]
      intro k hk
      rw [List.mem_singleton] at hk
      subst hk
      exact ⟨hdisj, hin⟩
    · rw [hkeys]
      intro k hk
      rw [List.mem_singleton] at hk
      subst hk
      exact ⟨0, rfl⟩
    · intro e he
      rw [List.mem_singleton] at he
      subst he
      rw [hkeys]
      simp
  · unfold fuelBound
    simp

/-- Witness for `solve_unreachable_empty`: a fully jammed 4-piece puzzle
(no piece can move at all) whose goal piece is away from the target. -/
theorem solve_unreachable_empty_witness :
    solve ⟨⟨[⟨0, 0, 2, .kHoriz⟩, ⟨2, 0, 2, .kVert⟩, ⟨2, 2, 2, .kVert⟩,
      ⟨2, 4, 2, .kVert⟩]⟩, 4, 2⟩ = some [] :=
  solve_unreachable_empty _ (by decide) (by decide) (by decide) (by decide)
    (by
      intro t ht
      have heq := reachable_of_no_neighbors _ (by decide) t ht
      subst heq
      decide)
